import Mathlib

/-!
Verification of the offline-persistence core of the jsayol/firebase-js-sdk
repository against its natural-language specification.

The development shallowly embeds the TypeScript sources:

* JavaScript primitive values become `Prim`; JSON values become `JValue`
  (`null`, primitive, or object with insertion-ordered fields).  JavaScript
  numbers are modelled as integers; no embedded algorithm inspects a numeric
  value except for truthiness.  Node priorities and the `.value`/`.priority`
  export keys are not modelled: none of the verified code paths construct
  them.
* `Node` (`src/database/core/snap`) is a leaf primitive or a children node
  with insertion-ordered fields; real children nodes keep a map sorted by
  `nameCompare`, modelled here by the well-formedness predicate `Node.wf`
  (strictly sorted keys, no empty children, valid key strings) together with
  plain `String` ordering.
* Storage keys (`path.toString(true)`, a `/`-separated string with a
  trailing `/`) are modelled as their list of path components; string
  operations of the source (`substring` of the base key, `split('/')` with
  empty parts filtered) become list operations (`drop`, identity), which is
  exact for keys whose components are nonempty and `/`-free.
* Promise-based store code becomes pure state transformation; a write batch
  becomes the list of its queued operations, applied in submission order by
  `applyOps`.  Fallible reads are passed in as `Except`-valued oracles.
-/

/-- A JavaScript primitive value (string, number, or boolean). -/
inductive Prim where
  | str (s : String)
  | num (n : Int)
  | bool (b : Bool)
deriving DecidableEq, Repr

/-- JavaScript truthiness of a primitive. -/
def Prim.truthy : Prim → Bool
  | .str s => !(s == "")
  | .num n => !(n == 0)
  | .bool b => b

mutual

/-- A JSON value: `null`, a primitive, or an object. -/
inductive JValue where
  | null
  | prim (p : Prim)
  | obj (fs : JFields)
deriving DecidableEq, Repr

/-- The insertion-ordered fields of a JSON object. -/
inductive JFields where
  | nil
  | cons (k : String) (v : JValue) (rest : JFields)
deriving DecidableEq, Repr

end

/-- JavaScript truthiness of a JSON value (objects are always truthy). -/
def JValue.truthy : JValue → Bool
  | .null => false
  | .prim p => p.truthy
  | .obj _ => true

/-- Property lookup on a JSON object's fields. -/
def JFields.lookupF : JFields → String → Option JValue
  | .nil, _ => none
  | .cons k' v rest, k => if k' = k then some v else rest.lookupF k

/-- Property assignment on a JSON object's fields: an existing key is
updated in place, a new key is appended (JavaScript insertion order). -/
def JFields.upsertF : JFields → String → JValue → JFields
  | .nil, k, v => .cons k v .nil
  | .cons k' v' rest, k, v =>
      if k' = k then .cons k v rest else .cons k' v' (rest.upsertF k v)

/-- Append of two field lists. -/
def JFields.appendF : JFields → JFields → JFields
  | .nil, gs => gs
  | .cons k v rest, gs => .cons k v (rest.appendF gs)

mutual

/-- A data node of the realtime database: a leaf primitive or a children
node (`ChildrenNode`).  `Node.children .nil` is `EMPTY_NODE`. -/
inductive Node where
  | leaf (p : Prim)
  | children (cs : NodeFields)
deriving DecidableEq, Repr

/-- The key-ordered children of a children node. -/
inductive NodeFields where
  | nil
  | cons (k : String) (c : Node) (rest : NodeFields)
deriving DecidableEq, Repr

end

/-- `ChildrenNode.EMPTY_NODE`. -/
def EMPTY_NODE : Node := .children .nil

/-- Whether a node is the empty children node (`Node.isEmpty()`). -/
def Node.isEmptyNode : Node → Bool
  | .children .nil => true
  | _ => false

mutual

/-- `Node.val(true)`: export a node to JSON.  A leaf exports its primitive,
an empty children node exports `null`, a nonempty children node exports an
object with one field per child, in child order. -/
def Node.val : Node → JValue
  | .leaf p => .prim p
  | .children .nil => .null
  | .children cs => .obj (NodeFields.valF cs)

/-- Children of a node, exported to JSON object fields in order. -/
def NodeFields.valF : NodeFields → JFields
  | .nil => .nil
  | .cons k c rest => .cons k c.val (NodeFields.valF rest)

end

mutual

/-- `nodeFromJSON`: build a node from a JSON value.  `null` gives the empty
node; object fields whose value parses to an empty node are dropped. -/
def nodeFromJSON : JValue → Node
  | .null => .children .nil
  | .prim p => .leaf p
  | .obj fs => .children (fieldsToNode fs)

/-- Build children from JSON object fields, dropping empty children. -/
def fieldsToNode : JFields → NodeFields
  | .nil => .nil
  | .cons k v rest =>
      if (nodeFromJSON v).isEmptyNode then fieldsToNode rest
      else .cons k (nodeFromJSON v) (fieldsToNode rest)

end

/-- A valid child key: nonempty and free of the path separator (real keys
are validated to exclude `/`, `.`, `#`, `$`, `[`, `]`). -/
def validKey (k : String) : Bool := !(k == "") && !(k.contains '/')

/-- Whether a children list holds a child under the given key. -/
def NodeFields.hasKeyF : NodeFields → String → Bool
  | .nil, _ => false
  | .cons k' _ rest, k => k' == k || NodeFields.hasKeyF rest k

/-- `true` iff `k` is strictly below every key in the field list. -/
def NodeFields.allGt (k : String) : NodeFields → Bool
  | .nil => true
  | .cons k' _ rest => decide (k < k') && NodeFields.allGt k rest

mutual

/-- Well-formedness invariant of real nodes: children keys are valid and
strictly sorted, and no child is an empty children node. -/
def Node.wf : Node → Bool
  | .leaf _ => true
  | .children cs => NodeFields.wfF cs

/-- Well-formedness of a children list. -/
def NodeFields.wfF : NodeFields → Bool
  | .nil => true
  | .cons k c rest =>
      validKey k && !c.isEmptyNode && Node.wf c &&
        NodeFields.allGt k rest && NodeFields.wfF rest

end

/-- A key of the persisted server cache: the component list of the path
whose string form (`path.toString(true)`) the source uses. -/
abbrev StoreKey := List String

/-- The contents of one store of the `StorageAdapter`: an association list
from key to stored primitive. -/
abbrev Store := List (StoreKey × Prim)

/-- One queued operation of a `StorageAdapterWriteBatch`. -/
inductive StoreOp where
  | set (key : StoreKey) (value : Prim)
  | removeKey (key : StoreKey)
  | removePrefixed (pre : StoreKey)
deriving DecidableEq, Repr

/-- Apply one batch operation to a store.  `set` upserts (the adapter is a
key-value store; the model appends fresh keys in arrival order). -/
def applyOp (st : Store) : StoreOp → Store
  | .set k v => st.filter (fun kv => !(kv.1 == k)) ++ [(k, v)]
  | .removeKey k => st.filter (fun kv => !(kv.1 == k))
  | .removePrefixed p => st.filter (fun kv => !(p.isPrefixOf kv.1))

/-- `writeBatch.run()`: apply the queued operations in submission order. -/
def applyOps (ops : List StoreOp) (st : Store) : Store := ops.foldl applyOp st

/-- `getAll(prefix)`: all items whose key extends the prefix. -/
def storeGetAll (st : Store) (p : StoreKey) : List (StoreKey × Prim) :=
  st.filter (fun kv => p.isPrefixOf kv.1)

namespace ServerCacheStore

/-- The nonempty prefixes of a path, longest first: the sequence of paths
visited by `removeLeafNodes_`'s `parent()` loop. -/
def prefixesDesc : StoreKey → List StoreKey
  | [] => []
  | k :: rest => ((prefixesDesc rest).map (fun q => k :: q)) ++ [[k]]

/-- `ServerCacheStore.removeLeafNodes_`: queue removal of every ancestor
leaf key on the path, then of the root key. -/
def removeLeafNodesOps (p : StoreKey) : List StoreOp :=
  ((prefixesDesc p).map StoreOp.removeKey) ++ [.removeKey []]

mutual

/-- `ServerCacheStore.setNestedData_`: flatten a JSON value into one `set`
per primitive leaf, keys extended per object field.  `null` values queue
nothing (`for-in` over `null` iterates nothing). -/
def setNestedData : JValue → StoreKey → List (StoreKey × Prim)
  | .obj fs, key => setNestedDataFields fs key
  | .null, _ => []
  | .prim p, key => [(key, p)]

/-- Flatten each field of a JSON object under its child key. -/
def setNestedDataFields : JFields → StoreKey → List (StoreKey × Prim)
  | .nil, _ => []
  | .cons k v rest, key => setNestedData v (key ++ [k]) ++ setNestedDataFields rest key

end

/-- `ServerCacheStore.saveNode_`: flatten `node.val(true)` below a path. -/
def saveNodeOps (n : Node) (p : StoreKey) : List StoreOp :=
  (setNestedData n.val p).map (fun it => .set it.1 it.2)

/-- The per-child operations of a partial overwrite: for each immediate
child, remove its prefix and write its flattened leaves. -/
def partialChildOps : NodeFields → StoreKey → List StoreOp
  | .nil, _ => []
  | .cons k c rest, p =>
      (.removePrefixed (p ++ [k]) :: saveNodeOps c (p ++ [k])) ++ partialChildOps rest p

/-- `node.forEachChild` of a partial overwrite (a leaf has no children). -/
def overwritePartialOps : Node → StoreKey → List StoreOp
  | .leaf _, _ => []
  | .children cs, p => partialChildOps cs p

/-- `ServerCacheStore.overwrite`: the queued batch of an overwrite. -/
def overwriteOps (n : Node) (p : StoreKey) (partialFlag : Bool) : List StoreOp :=
  removeLeafNodesOps p ++
    (if partialFlag then overwritePartialOps n p
     else .removePrefixed p :: saveNodeOps n p)

/-- `ServerCacheStore.overwrite(node, path, partial)` after its batch ran. -/
def overwrite (n : Node) (p : StoreKey) (partialFlag : Bool) (st : Store) : Store :=
  applyOps (overwriteOps n p partialFlag) st

/-- One navigation/assignment pass of `getAtPath`'s reassembly loop for a
single item with the given relative path.  Mirrors JavaScript semantics:
intermediate objects are created with `child[k] = child[k] || {}` (so a
falsy primitive is replaced by a fresh object and a truthy primitive is
descended into, losing the write), and the final component is assigned the
item's value.  An empty relative path indexes with `subpath[-1]`, i.e. the
property `"undefined"`. -/
def insertPath : JValue → List String → Prim → JValue
  | .obj fs, [], v => .obj (fs.upsertF "undefined" (.prim v))
  | .obj fs, [k], v => .obj (fs.upsertF k (.prim v))
  | .obj fs, k :: r :: rest, v =>
      let childJ : JValue :=
        match fs.lookupF k with
        | some c => if c.truthy then c else .obj .nil
        | none => .obj .nil
      .obj (fs.upsertF k (insertPath childJ (r :: rest) v))
  | j, _, _ => j

/-- Fold the reassembly pass over a list of items (relative keys). -/
def buildJ (d : JValue) (items : List (StoreKey × Prim)) : JValue :=
  items.foldl (fun d it => insertPath d it.1 it.2) d

/-- `getAtPath`'s multi-item branch: strip the base key from each item and
build a nested object starting from `{}`. -/
def reassemble (p : StoreKey) (items : List (StoreKey × Prim)) : JValue :=
  buildJ (.obj .nil) (items.map (fun it => (it.1.drop p.length, it.2)))

/-- The JSON value `getAtPath` reconstructs from the items read below the
base key: no items is `null`, a single item stored at the base key itself
is that primitive, anything else is reassembled into a nested object. -/
def getAtPathData (p : StoreKey) (items : List (StoreKey × Prim)) : JValue :=
  match items with
  | [] => .null
  | [(k, v)] => if k = p then .prim v else reassemble p [(k, v)]
  | _ => reassemble p items

/-- `ServerCacheStore.getAtPath`: read all keys below the path and
reconstruct the node. -/
def getAtPath (st : Store) (p : StoreKey) : Node :=
  nodeFromJSON (getAtPathData p (storeGetAll st p))

end ServerCacheStore

/-- Generic association-list lookup (models map/object access keyed by a
path or identifier). -/
def lookupKey {κ β : Type} [DecidableEq κ] : List (κ × β) → κ → Option β
  | [], _ => none
  | (k', v) :: rest, k => if k' = k then some v else lookupKey rest k

/-- Generic association-list upsert: existing keys are updated in place,
new keys are appended (JavaScript object insertion order). -/
def upsertKey {κ β : Type} [DecidableEq κ] : List (κ × β) → κ → β → List (κ × β)
  | [], k, v => [(k, v)]
  | (k', v') :: rest, k, v =>
      if k' = k then (k, v) :: rest else (k', v') :: upsertKey rest k v

/-- Generic association-list key deletion (JavaScript `delete`). -/
def removeKeyList {κ β : Type} [DecidableEq κ] (l : List (κ × β)) (k : κ) : List (κ × β) :=
  l.filter (fun kv => !decide (kv.1 = k))

/-- An `ImmutableTree<boolean>`: an optional boolean at the root plus
children indexed by path component (the sorted-map children collection is
modelled as an association list; no verified property depends on child
order). -/
inductive ITree where
  | mk (value : Option Bool) (children : List (String × ITree))

/-- The root value of a tree. -/
def ITree.value : ITree → Option Bool
  | .mk v _ => v

/-- The children of a tree. -/
def ITree.children : ITree → List (String × ITree)
  | .mk _ cs => cs

/-- `ImmutableTree.Empty`. -/
def ITree.emptyT : ITree := .mk none []

/-- `ImmutableTree.isEmpty()`: no value and no children. -/
def ITree.isEmptyT : ITree → Bool
  | .mk v cs => v.isNone && cs.isEmpty

/-- Modelled from the spec: `ImmutableTree.findLeafMostValue` is a utility
of the repository that is not among the provided sources; per the spec it
returns the leaf-most set value on the path (the last non-null value seen
while walking the path from the root). -/
def ITree.findLeafMostValueAux : ITree → List String → Option Bool → Option Bool
  | .mk v _, [], latest => match v with | some b => some b | none => latest
  | .mk v cs, k :: rest, latest =>
      let latest' := match v with | some b => some b | none => latest
      match lookupKey cs k with
      | some c => c.findLeafMostValueAux rest latest'
      | none => latest'

/-- The leaf-most set value on the path to `path`. -/
def ITree.findLeafMostValue (t : ITree) (path : List String) : Option Bool :=
  t.findLeafMostValueAux path none

/-- Modelled from the spec: `ImmutableTree.findRootMostMatchingPathAndValue`
(shared database utility, not among the provided sources) returns the value
of the root-most tree node on the path whose value is set and satisfies the
predicate; callers only use its truthiness. -/
def ITree.findRootMostMatchingValue : ITree → List String → (Bool → Bool) → Option Bool
  | .mk v cs, path, pred =>
      if (match v with | some b => pred b | none => false) then v
      else
        match path with
        | [] => none
        | k :: rest =>
            match lookupKey cs k with
            | some c => c.findRootMostMatchingValue rest pred
            | none => none

/-- Modelled from the spec: `ImmutableTree.setTree` (shared database
utility, not among the provided sources) replaces the subtree at a path,
creating intermediate nodes and dropping a child that becomes empty. -/
def ITree.setTree : ITree → List String → ITree → ITree
  | _, [], newTree => newTree
  | .mk v cs, k :: rest, newTree =>
      let child := (lookupKey cs k).getD ITree.emptyT
      let newChild := child.setTree rest newTree
      if newChild.isEmptyT then .mk v (removeKeyList cs k)
      else .mk v (upsertKey cs k newChild)

/-- `PRUNE_TREE`: a single node whose value is `true`. -/
def PRUNE_TREE : ITree := .mk (some true) []

/-- `KEEP_TREE`: a single node whose value is `false`. -/
def KEEP_TREE : ITree := .mk (some false) []

/-- A `PruneForest`: an `ImmutableTree<boolean>` where `true` means prune
and `false` means keep. -/
structure PruneForest where
  tree : ITree

/-- `PruneForest.Empty`. -/
def PruneForest.emptyPF : PruneForest := ⟨ITree.emptyT⟩

/-- `PruneForest.shouldPruneUnkeptDescendants`: the leaf-most set value on
the path is `prune`. -/
def PruneForest.shouldPruneUnkeptDescendants (f : PruneForest) (path : List String) : Bool :=
  (f.tree.findLeafMostValue path) == some true

/-- `PruneForest.prunePath`: fails (`none`) when the path lies under a kept
subtree, else records `PRUNE_TREE` at the path.  (The source checks
`KEEP_PREDICATE` twice — its second, "already pruned" early return is dead
code and is dropped here.) -/
def PruneForest.prunePath (f : PruneForest) (path : List String) : Option PruneForest :=
  if (f.tree.findRootMostMatchingValue path (fun b => !b)).isSome then none
  else some ⟨f.tree.setTree path PRUNE_TREE⟩

/-- `PruneForest.keepPath`: no-op when the path is already kept, else
records `KEEP_TREE` at the path. -/
def PruneForest.keepPath (f : PruneForest) (path : List String) : PruneForest :=
  if (f.tree.findRootMostMatchingValue path (fun b => !b)).isSome then f
  else ⟨f.tree.setTree path KEEP_TREE⟩

/-- A query, reduced to the data the persistence layer consumes: its path,
its `queryIdentifier()`, and the `loadsAllData()` / `isDefault()` flags of
its parameters. -/
structure Query where
  path : List String
  queryId : String
  loadsAllData : Bool
  isDefault : Bool
deriving DecidableEq, Repr

/-- `Query.DefaultIdentifier`. -/
def defaultIdentifier : String := "default"

/-- `Query.defaultAtPath`. -/
def Query.defaultAtPath (p : List String) : Query :=
  ⟨p, defaultIdentifier, true, true⟩

/-- `normalizeQuery`: any query that loads all data is replaced by the
default query at its path. -/
def normalizeQuery (q : Query) : Query :=
  if q.loadsAllData then Query.defaultAtPath q.path else q

/-- A `TrackedQuery` record. -/
structure TrackedQuery where
  id : Nat
  query : Query
  lastUse : Nat
  active : Bool
  complete : Bool
deriving DecidableEq, Repr

/-- The assertion guarding `cacheTrackedQuery_`: a tracked non-default
query never loads all data. -/
def cacheAssertOk (tq : TrackedQuery) : Bool :=
  !tq.query.loadsAllData || tq.query.isDefault

/-- The in-memory state of a `TrackedQueryManager`: the `nextId` counter
and the tracked-query tree.  The tree of per-path maps is flattened to an
association list keyed by `(path, queryIdentifier)`, listed in the tree's
traversal order; no verified property depends on that order. -/
structure TQMState where
  nextId : Nat
  entries : List ((List String × String) × TrackedQuery)
deriving DecidableEq, Repr

/-- `TrackedQueryManager.find` (on the normalized query). -/
def TQMState.findTQ (st : TQMState) (q : Query) : Option TrackedQuery :=
  let qn := normalizeQuery q
  lookupKey st.entries (qn.path, qn.queryId)

/-- `TrackedQueryManager.cacheTrackedQuery_` without its assertion (all
call sites either establish it or model it separately). -/
def TQMState.cacheTQ (st : TQMState) (tq : TrackedQuery) : TQMState :=
  { st with entries := upsertKey st.entries (tq.query.path, tq.query.queryId) tq }

/-- `TrackedQueryManager.remove`: `none` when the query is not tracked
(the source asserts), else the entry is deleted. -/
def TQMState.removeTQ (st : TQMState) (q : Query) : Option TQMState :=
  let qn := normalizeQuery q
  match st.findTQ qn with
  | none => none
  | some _ => some { st with entries := removeKeyList st.entries (qn.path, qn.queryId) }

/-- Update the tracked query stored under a key, in place. -/
def TQMState.updateEntry (st : TQMState) (key : List String × String)
    (f : TrackedQuery → TrackedQuery) : TQMState :=
  { st with entries := st.entries.map (fun e => if e.1 = key then (e.1, f e.2) else e) }

/-- One iteration of the constructor's load loop: raise `nextId` above the
loaded id, flip a loaded `active` query to inactive (recording the save),
and cache it; `none` models the `cacheTrackedQuery_` assertion firing. -/
def initStep (now : Nat) (acc : Option (TQMState × List TrackedQuery))
    (tq : TrackedQuery) : Option (TQMState × List TrackedQuery) :=
  match acc with
  | none => none
  | some (st, saves) =>
      let st1 : TQMState := { st with nextId := max (tq.id + 1) st.nextId }
      let tq1 : TrackedQuery :=
        if tq.active then { tq with active := false, lastUse := now } else tq
      let saves1 := if tq.active then saves ++ [tq1] else saves
      if cacheAssertOk tq1 then some (st1.cacheTQ tq1, saves1) else none

/-- The `TrackedQueryManager` constructor's load callback: state after all
loaded queries are processed, plus the queries saved back to the store. -/
def initTQM (loaded : List TrackedQuery) (now : Nat) :
    Option (TQMState × List TrackedQuery) :=
  loaded.foldl (initStep now) (some (⟨0, []⟩, []))

/-- `TrackedQueryManager.setActiveState_` (behind `initialized`): update an
existing entry's `active`/`lastUse`, or create a tracked query with the
next id; `none` models the "should already be tracking it" assertion. -/
def TQMState.setActiveState (st : TQMState) (q : Query) (active : Bool) (now : Nat) :
    Option TQMState :=
  let qn := normalizeQuery q
  match st.findTQ qn with
  | some _ =>
      some (st.updateEntry (qn.path, qn.queryId)
        (fun tq => { tq with active := active, lastUse := now }))
  | none =>
      if active then
        some (TQMState.cacheTQ { st with nextId := st.nextId + 1 }
          ⟨st.nextId, qn, now, active, false⟩)
      else none

/-- `TrackedQueryManager.isIncludedInDefaultCompleteQuery_`: some rootmost
prefix of the path holds a complete default tracked query. -/
def TQMState.isIncludedInDefaultCompleteQuery (st : TQMState) (path : List String) : Bool :=
  (path.inits).any (fun pre =>
    match lookupKey st.entries (pre, defaultIdentifier) with
    | some tq => tq.complete
    | none => false)

/-- `TrackedQueryManager.hasActiveDefault`: some prefix of the path holds
an active default tracked query. -/
def TQMState.hasActiveDefault (st : TQMState) (path : List String) : Bool :=
  (path.inits).any (fun pre =>
    match lookupKey st.entries (pre, defaultIdentifier) with
    | some tq => tq.active
    | none => false)

/-- `TrackedQueryManager.ensureComplete` (behind `initialized`); `none`
models the "already marked as complete" assertion. -/
def TQMState.ensureComplete (st : TQMState) (path : List String) (now : Nat) :
    Option TQMState :=
  let q := Query.defaultAtPath path
  if st.isIncludedInDefaultCompleteQuery path then some st
  else
    match st.findTQ q with
    | none =>
        some (TQMState.cacheTQ { st with nextId := st.nextId + 1 }
          ⟨st.nextId, q, now, false, true⟩)
    | some tq =>
        if tq.complete then none
        else some (st.updateEntry (path, defaultIdentifier)
          (fun t => { t with complete := true }))

/-- A cache policy (the `maxPrunableQueriesToKeep` of the LRU policy is the
finite constant 1000; the infinite value of the test-only policy is not
representable and not needed by any claim). -/
structure CachePolicy where
  percentQueriesPruneAtOnce : ℚ
  maxPrunableQueriesToKeep : Nat
deriving DecidableEq

/-- `numQueriesToPrune` of `TrackedQueryManager.ts`. -/
def numQueriesToPrune (policy : CachePolicy) (numPrunable : Nat) : Int :=
  let numPercent : Int := Int.ceil ((numPrunable : ℚ) * policy.percentQueriesPruneAtOnce)
  let numMax : Int :=
    if numPrunable > policy.maxPrunableQueriesToKeep then
      (numPrunable : Int) - (policy.maxPrunableQueriesToKeep : Int)
    else 0
  max numMax numPercent

/-- Stable insertion of a tracked query into a list ascending by
`lastUse` (`TrackedQuery.lastUseComparator` under a stable sort). -/
def insertByLastUse (w : TrackedQuery) : List TrackedQuery → List TrackedQuery
  | [] => [w]
  | v :: vs => if w.lastUse < v.lastUse then w :: v :: vs else v :: insertByLastUse w vs

/-- Stable sort of tracked queries ascending by `lastUse`. -/
def sortByLastUse : List TrackedQuery → List TrackedQuery
  | [] => []
  | w :: ws => insertByLastUse w (sortByLastUse ws)

/-- One iteration of `pruneOld`'s prune loop: prune-mark the query's path
and remove the query from the manager (either assertion firing gives
`none`). -/
def pruneStep (acc : Option (PruneForest × TQMState)) (tq : TrackedQuery) :
    Option (PruneForest × TQMState) :=
  match acc with
  | none => none
  | some (f, s) =>
      match f.prunePath tq.query.path with
      | none => none
      | some f1 =>
          match s.removeTQ tq.query with
          | none => none
          | some s1 => some (f1, s1)

/-- `TrackedQueryManager.pruneOld`.  Note (faithful to the source, see
lines 311–318): the partition places `active` tracked queries in
`prunableQueries` and the inactive ones in `unprunableQueries`.  The first
`numToPrune` sorted prunable queries are prune-marked and removed, the rest
and the unprunable ones are keep-marked. -/
def TQMState.pruneOld (st : TQMState) (policy : CachePolicy) :
    Option (PruneForest × TQMState) :=
  let prunableQueries := sortByLastUse ((st.entries.map (fun e => e.2)).filter (fun tq => tq.active))
  let unprunableQueries := (st.entries.map (fun e => e.2)).filter (fun tq => !tq.active)
  let numToPrune := (numQueriesToPrune policy prunableQueries.length).toNat
  let pruned := (prunableQueries.take numToPrune).foldl pruneStep
    (some (PruneForest.emptyPF, st))
  pruned.map (fun r =>
    let f1 := (prunableQueries.drop numToPrune).foldl
      (fun f tq => f.keepPath tq.query.path) r.1
    let f2 := unprunableQueries.foldl (fun f tq => f.keepPath tq.query.path) f1
    (f2, r.2))

/-- `TrackedQueryManager.numPrunableQueries`: counts the tracked queries
that are not active. -/
def TQMState.numPrunableQueries (st : TQMState) : Nat :=
  ((st.entries.map (fun e => e.2)).filter (fun tq => !tq.active)).length

/-- A persisted user write (`PersistedUserWrite`): decimal id key, path,
and either an `overwrite` or a `merge` payload. -/
structure PersistedUserWrite where
  id : Nat
  path : List String
  overwriteData : Option JValue
  mergeData : Option (List (String × JValue))
deriving DecidableEq

/-- Insertion of a write into a list ascending by id, per the comparator
`(w1, w2) => w1.id < w2.id ? -1 : 1` (ids are distinct: each is a distinct
store key). -/
def insertById (w : PersistedUserWrite) :
    List PersistedUserWrite → List PersistedUserWrite
  | [] => [w]
  | v :: vs => if w.id < v.id then w :: v :: vs else v :: insertById w vs

/-- `UserWriteStore.getAll`: the stored writes sorted ascending by id. -/
def getAllSorted : List PersistedUserWrite → List PersistedUserWrite
  | [] => []
  | w :: ws => insertById w (getAllSorted ws)

/-- The loop of `Repo.restoreWrites_`: check the "restored writes were not
in order" assertion (`none` when it fires), set `nextWriteId_` to the
write's id plus one, re-apply the write to the sync tree and re-send it to
the transport (both recorded by listing the write id, in order).  The state
is `(nextWriteId, lastWriteId)` with `none` for `NEGATIVE_INFINITY`. -/
def restoreWritesAux : Nat → Option Nat → List PersistedUserWrite →
    Option (Nat × List Nat)
  | n, _, [] => some (n, [])
  | _, none, w :: ws =>
      (restoreWritesAux (w.id + 1) (some w.id) ws).map
        (fun r => (r.1, w.id :: r.2))
  | _, some l, w :: ws =>
      if l < w.id then
        (restoreWritesAux (w.id + 1) (some w.id) ws).map
          (fun r => (r.1, w.id :: r.2))
      else none

/-- `Repo.restoreWrites_` over the writes delivered by
`UserWriteStore.getAll`, starting from the repo's current `nextWriteId_`:
the final `nextWriteId_` and the ids re-applied/re-sent, in order. -/
def restoreWrites (n0 : Nat) (writes : List PersistedUserWrite) :
    Option (Nat × List Nat) :=
  restoreWritesAux n0 none writes

/-- A `CacheNode`. -/
structure CacheNode where
  node : Node
  fullyInitialized : Bool
  filtered : Bool
deriving DecidableEq, Repr

/-- `TrackedQueryManager.isComplete`: `none` models the `TypeError` thrown
when the final branch reads `.complete` of a missing map or entry. -/
def TQMState.isCompleteTQ (st : TQMState) (q : Query) : Option Bool :=
  if st.isIncludedInDefaultCompleteQuery q.path then some true
  else if q.loadsAllData then some false
  else (lookupKey st.entries (q.path, q.queryId)).map (fun tq => tq.complete)

/-- The tail of `PersistenceManager.getServerCache`: resolve the node from
the keyed reads when a keys promise exists, else from the full subtree
read, then build the `CacheNode`; a rejected read is caught and yields
`(EMPTY_NODE, false, false)`. -/
def getServerCacheFinish (complete : Bool)
    (keysPromise : Option (Except Unit (List String)))
    (getForKeysRes : List String → Except Unit Node)
    (getAtPathRes : Except Unit Node) : CacheNode :=
  let nodeRes : Except Unit Node :=
    match keysPromise with
    | some kr => kr.bind getForKeysRes
    | none => getAtPathRes
  match nodeRes with
  | .ok n => ⟨n, complete, keysPromise.isSome⟩
  | .error _ => ⟨EMPTY_NODE, false, false⟩

/-- `PersistenceManager.getServerCache`, with the storage reads passed in
as oracles (`getKeysRes` for `trackedQueryStore_.getKeys`,
`knownChildrenRes` for `trackedQueryManager_.knownCompleteChildren`, and
the two `ServerCacheStore` reads).  `none` models a synchronous
`TypeError` (complete query whose tracked entry is missing). -/
def PersistenceManager.getServerCache (st : TQMState) (q : Query)
    (getKeysRes : Nat → Except Unit (List String))
    (knownChildrenRes : Except Unit (List String))
    (getForKeysRes : List String → Except Unit Node)
    (getAtPathRes : Except Unit Node) : Option CacheNode :=
  match st.isCompleteTQ q with
  | none => none
  | some true =>
      match st.findTQ q with
      | none => none
      | some tq =>
          let keysPromise : Option (Except Unit (List String)) :=
            if !q.loadsAllData && tq.complete then some (getKeysRes tq.id) else none
          some (getServerCacheFinish true keysPromise getForKeysRes getAtPathRes)
  | some false =>
      some (getServerCacheFinish false (some knownChildrenRes) getForKeysRes getAtPathRes)

/-- A `View`, reduced to the data `SyncPoint` bookkeeping consumes: its
query and its event registrations (represented by tokens).  The view's
`ViewCache` and event computation play no role in the verified claims and
are elided. -/
structure View where
  query : Query
  regs : List Nat
deriving DecidableEq, Repr

/-- `View.removeEventRegistration`: with a registration, remove the
matching one(s); with `none`, remove all. -/
def View.removeReg (v : View) (reg : Option Nat) : View :=
  match reg with
  | none => { v with regs := [] }
  | some r => { v with regs := v.regs.filter (fun x => !(x == r)) }

/-- The `views_` map of a `SyncPoint`, keyed by query identifier in
insertion order. -/
structure SyncPointState where
  views : List (String × View)
deriving DecidableEq, Repr

/-- `SyncPoint.getCompleteView`: the first view whose query loads all
data. -/
def SyncPointState.getCompleteView (sp : SyncPointState) : Option (String × View) :=
  sp.views.find? (fun kv => kv.2.query.loadsAllData)

/-- `SyncPoint.viewForQuery`, returning the stored key along with the
view. -/
def SyncPointState.viewEntryForQuery (sp : SyncPointState) (q : Query) :
    Option (String × View) :=
  if q.loadsAllData then sp.getCompleteView
  else (lookupKey sp.views q.queryId).map (fun v => (q.queryId, v))

/-- `SyncPoint.addEventRegistration`: attach the registration to the view
found by `viewForQuery`, or create a view for the query (its cache
seeding is elided).  -/
def SyncPointState.addEventRegistration (sp : SyncPointState) (q : Query) (reg : Nat) :
    SyncPointState :=
  match sp.viewEntryForQuery q with
  | some (vid, v) => ⟨upsertKey sp.views vid { v with regs := v.regs ++ [reg] }⟩
  | none => ⟨upsertKey sp.views q.queryId ⟨q, [reg]⟩⟩

/-- `SyncPoint.removeEventRegistration`: for a default query, remove the
registration from every view and drop the views that become empty; else
only from the view stored under the query's identifier.  Returns the new
state and the `removed` query list (dropped non-default queries, plus a
default query at the path when the last complete view went away). -/
def SyncPointState.removeEventRegistration (sp : SyncPointState) (q : Query)
    (reg : Option Nat) : SyncPointState × List Query :=
  let hadCompleteView := sp.getCompleteView.isSome
  let afterAndRemoved : SyncPointState × List Query :=
    if q.queryId = defaultIdentifier then
      let processed := sp.views.map (fun kv => (kv.1, kv.2.removeReg reg))
      let kept := processed.filter (fun kv => !kv.2.regs.isEmpty)
      let dropped := processed.filter (fun kv => kv.2.regs.isEmpty)
      (⟨kept⟩, dropped.filterMap (fun kv =>
        if kv.2.query.loadsAllData then none else some kv.2.query))
    else
      match lookupKey sp.views q.queryId with
      | none => (sp, [])
      | some v =>
          let v1 := v.removeReg reg
          if v1.regs.isEmpty then
            (⟨removeKeyList sp.views q.queryId⟩,
              if v.query.loadsAllData then [] else [v.query])
          else (⟨upsertKey sp.views q.queryId v1⟩, [])
  let sp1 := afterAndRemoved.1
  let removed :=
    if hadCompleteView && !sp1.getCompleteView.isSome then
      afterAndRemoved.2 ++ [Query.defaultAtPath q.path]
    else afterAndRemoved.2
  (sp1, removed)

/-- The number of complete views (views whose query loads all data) at a
sync point. -/
def SyncPointState.completeCount (sp : SyncPointState) : Nat :=
  (sp.views.filter (fun kv => kv.2.query.loadsAllData)).length

/-- The sync-point invariant used by claim C6: the `views_` keys are
distinct (a JavaScript object) and at most one view is complete. -/
def SyncPointState.invariantSP (sp : SyncPointState) : Prop :=
  (sp.views.map Prod.fst).Nodup ∧ sp.completeCount ≤ 1

/-- The state of a `SyncTree` relevant to tagged server operations: its
`tagToQueryMap_` (keys `'_' + tag` modelled by the tag itself) and, held
abstract, the rest (`syncPointTree_`, `pendingWriteTree_`,
`queryToTagMap_`, and the persistence manager's stores). -/
structure SyncTreeState (σ : Type) where
  tagToQueryMap : List (Nat × Query)
  core : σ

/-- `SyncTree.queryForTag_` (`|| null` can never fire on an object). -/
def SyncTreeState.queryForTag {σ : Type} (st : SyncTreeState σ) (tag : Nat) : Option Query :=
  lookupKey st.tagToQueryMap tag

/-- `Path.relativePath(query.path, path)` (asserted in the source to be
within the query's path). -/
def relativePathOf (base p : List String) : List String :=
  p.drop base.length

/-- An `Overwrite` operation routed to a tagged query. -/
structure OverwriteOp where
  sourceQueryId : String
  path : List String
  snap : Node

/-- A `Merge` operation routed to a tagged query; the change tree built by
`ImmutableTree.fromObject` is kept as the child map itself. -/
structure MergeOp where
  sourceQueryId : String
  path : List String
  children : List (String × Node)

/-- `SyncTree.applyTaggedQueryOverwrite`, parametric in the collaborators
it invokes when the tag is known: `persistOverwrite` models
`persistenceManager_.applyServerOverwrite` and `applyTagged` models
`applyTaggedOperation_` (which touches `syncPointTree_` and
`pendingWriteTree_` and produces events). -/
def SyncTree.applyTaggedQueryOverwrite {σ ε : Type}
    (persistOverwrite : Node → Query → σ → σ)
    (applyTagged : List String → OverwriteOp → σ → List ε × σ)
    (st : SyncTreeState σ) (path : List String) (snap : Node) (tag : Nat) :
    List ε × SyncTreeState σ :=
  match st.queryForTag tag with
  | some query =>
      let relativePath := relativePathOf query.path path
      let queryToOverwrite :=
        if relativePath.isEmpty then query else Query.defaultAtPath path
      let core1 := persistOverwrite snap queryToOverwrite st.core
      let res := applyTagged query.path ⟨query.queryId, relativePath, snap⟩ core1
      (res.1, { st with core := res.2 })
  | none => ([], st)

/-- `SyncTree.applyTaggedQueryMerge`, parametric like the overwrite. -/
def SyncTree.applyTaggedQueryMerge {σ ε : Type}
    (persistMerge : List (String × Node) → List String → σ → σ)
    (applyTagged : List String → MergeOp → σ → List ε × σ)
    (st : SyncTreeState σ) (path : List String)
    (changedChildren : List (String × Node)) (tag : Nat) :
    List ε × SyncTreeState σ :=
  match st.queryForTag tag with
  | some query =>
      let relativePath := relativePathOf query.path path
      let core1 := persistMerge changedChildren path st.core
      let res := applyTagged query.path ⟨query.queryId, relativePath, changedChildren⟩ core1
      (res.1, { st with core := res.2 })
  | none => ([], st)

/-- `ServerCacheStore.pruneCache`: the queued removals for the keys below
the path whose relative path the forest says to prune. -/
def ServerCacheStore.pruneCacheOps (forest : PruneForest) (p : StoreKey) (st : Store) :
    List StoreOp :=
  ((storeGetAll st p).map (fun kv => kv.1)).filterMap (fun k =>
    if forest.shouldPruneUnkeptDescendants (k.drop p.length) then some (.removeKey k)
    else none)

/-- `ServerCacheStore.pruneCache(forest, path)` after its batch ran (the
source skips running an empty batch, with the same result). -/
def ServerCacheStore.pruneCache (forest : PruneForest) (p : StoreKey) (st : Store) : Store :=
  applyOps (ServerCacheStore.pruneCacheOps forest p st) st

/-- The default query at path `foo`, used by the C1 counterexample. -/
def bugQuery : Query := Query.defaultAtPath ["foo"]

/-- An *active* tracked query at path `foo`. -/
def bugTQ : TrackedQuery := ⟨0, bugQuery, 100, true, false⟩

/-- A manager holding exactly one tracked query, which is active. -/
def bugState : TQMState := ⟨1, [((["foo"], defaultIdentifier), bugTQ)]⟩

/-- A policy with `percentQueriesPruneAtOnce() = 0` and
`maxPrunableQueriesToKeep() = 0`, so `numQueriesToPrune` is the excess of
the prunable count over zero. -/
def bugPolicy : CachePolicy := ⟨0, 0⟩

/-! ## Generic lemmas about the association-list operations -/

theorem lookupKey_mem {κ β : Type} [DecidableEq κ] :
    ∀ (l : List (κ × β)) (k : κ) (v : β), lookupKey l k = some v → (k, v) ∈ l := by
  intro l
  induction l with
  | nil => intro k v h; simp [lookupKey] at h
  | cons e rest ih =>
      intro k v h
      cases e with
      | mk k' v' =>
          by_cases he : k' = k
          · subst he
            simp [lookupKey] at h
            subst h
            exact List.mem_cons_self _ _
          · simp [lookupKey, he] at h
            exact List.mem_cons_of_mem _ (ih k v h)

theorem upsertKey_of_lookup_none {κ β : Type} [DecidableEq κ] :
    ∀ (l : List (κ × β)) (k : κ) (v : β), lookupKey l k = none →
      upsertKey l k v = l ++ [(k, v)] := by
  intro l
  induction l with
  | nil => intro k v _; simp [upsertKey]
  | cons e rest ih =>
      intro k v h
      by_cases he : e.1 = k
      · simp [lookupKey, he] at h
      · cases e with
        | mk k' v' =>
            simp only [upsertKey]
            simp at he
            rw [if_neg he]
            simp [lookupKey, he] at h
            rw [ih k v h]
            simp

theorem mem_upsertKey {κ β : Type} [DecidableEq κ] :
    ∀ (l : List (κ × β)) (k : κ) (v : β) (e : κ × β),
      e ∈ upsertKey l k v → e ∈ l ∨ e = (k, v) := by
  intro l
  induction l with
  | nil => intro k v e h; simp [upsertKey] at h; right; exact h
  | cons hd rest ih =>
      intro k v e h
      cases hd with
      | mk k' v' =>
          by_cases he : k' = k
          · simp only [upsertKey, if_pos he] at h
            rcases List.mem_cons.mp h with h | h
            · right; exact h
            · left; exact List.mem_cons_of_mem _ h
          · simp only [upsertKey, if_neg he] at h
            rcases List.mem_cons.mp h with h | h
            · left; exact h ▸ List.mem_cons_self _ _
            · rcases ih k v e h with h | h
              · left; exact List.mem_cons_of_mem _ h
              · right; exact h

theorem mem_removeKeyList {κ β : Type} [DecidableEq κ] (l : List (κ × β)) (k : κ)
    (e : κ × β) (h : e ∈ removeKeyList l k) : e ∈ l :=
  List.mem_of_mem_filter h

/-! ## Claim C9: tagged updates for a forgotten query are dropped -/

/-- Claim C9: for every tag that is not present in the tag-to-query map,
`SyncTree.applyTaggedQueryOverwrite` and `SyncTree.applyTaggedQueryMerge`
return an empty event list and leave the sync-tree state unchanged, for
every behaviour of the persistence manager and of `applyTaggedOperation_`
(hence neither collaborator is invoked). -/
theorem claim9_tagged_missing_query {σ ε : Type}
    (persistOverwrite : Node → Query → σ → σ)
    (applyTaggedO : List String → OverwriteOp → σ → List ε × σ)
    (persistMerge : List (String × Node) → List String → σ → σ)
    (applyTaggedM : List String → MergeOp → σ → List ε × σ)
    (st : SyncTreeState σ) (path : List String) (snap : Node)
    (changedChildren : List (String × Node)) (tag : Nat)
    (h : st.queryForTag tag = none) :
    SyncTree.applyTaggedQueryOverwrite persistOverwrite applyTaggedO st path snap tag
        = ([], st) ∧
    SyncTree.applyTaggedQueryMerge persistMerge applyTaggedM st path changedChildren tag
        = ([], st) := by
  constructor
  · simp [SyncTree.applyTaggedQueryOverwrite, h]
  · simp [SyncTree.applyTaggedQueryMerge, h]

/-- Witness for C9 at a concrete state with an empty tag map. -/
theorem claim9_witness :
    SyncTree.applyTaggedQueryOverwrite (fun (_ : Node) (_ : Query) (s : Unit) => s)
        (fun _ _ s => (([] : List Unit), s)) ⟨[], ()⟩ ["a"] EMPTY_NODE 7 = ([], ⟨[], ()⟩) ∧
    SyncTree.applyTaggedQueryMerge (fun _ _ (s : Unit) => s)
        (fun _ _ s => (([] : List Unit), s)) ⟨[], ()⟩ ["a"] [] 7 = ([], ⟨[], ()⟩) :=
  claim9_tagged_missing_query _ _ _ _ ⟨[], ()⟩ ["a"] EMPTY_NODE [] 7 rfl

/-! ## Claim C7: the number of queries selected for pruning -/

/-- Claim C7: for every cache policy with a nonnegative prune percentage
and every number of prunable queries, `numQueriesToPrune` equals
`max(numPrunable - maxPrunableQueriesToKeep, ceil(numPrunable * percent))`. -/
theorem claim7_numQueriesToPrune (policy : CachePolicy) (numPrunable : Nat)
    (hp : 0 ≤ policy.percentQueriesPruneAtOnce) :
    numQueriesToPrune policy numPrunable =
      max ((numPrunable : Int) - (policy.maxPrunableQueriesToKeep : Int))
        (Int.ceil ((numPrunable : ℚ) * policy.percentQueriesPruneAtOnce)) := by
  have hc : 0 ≤ Int.ceil ((numPrunable : ℚ) * policy.percentQueriesPruneAtOnce) :=
    Int.ceil_nonneg (mul_nonneg (by positivity) hp)
  unfold numQueriesToPrune
  rcases le_or_lt (numPrunable : Int) (policy.maxPrunableQueriesToKeep : Int) with h | h
  · have hnot : ¬(numPrunable > policy.maxPrunableQueriesToKeep) := by omega
    simp only [hnot, if_false]
    omega
  · have hyes : numPrunable > policy.maxPrunableQueriesToKeep := by omega
    simp only [hyes, if_true]

/-- Witness for C7 at the LRU constants scaled down. -/
theorem claim7_witness :
    numQueriesToPrune ⟨1/2, 3⟩ 10 =
      max ((10 : Int) - ((3 : Nat) : Int)) (Int.ceil ((10 : ℚ) * ((1 : ℚ)/2))) :=
  claim7_numQueriesToPrune ⟨1/2, 3⟩ 10 (by norm_num)

/-! ## Claim C8: read failures fall back to an empty cache node -/

/-- Claim C8: whenever any storage read performed by
`PersistenceManager.getServerCache` fails — the known-complete-children
read, the tracked-keys read, the per-key subtree read, or the full subtree
read, on whichever of the three read paths the query takes — the call
resolves (rather than rejecting) to `(EMPTY_NODE, false, false)`. -/
theorem claim8_getServerCache_failure (st : TQMState) (q : Query)
    (gk : Nat → Except Unit (List String)) (kc : Except Unit (List String))
    (gfk : List String → Except Unit Node) (gap : Except Unit Node) :
    (st.isCompleteTQ q = some false → kc = .error () →
      PersistenceManager.getServerCache st q gk kc gfk gap
        = some ⟨EMPTY_NODE, false, false⟩) ∧
    (∀ ks, st.isCompleteTQ q = some false → kc = .ok ks → gfk ks = .error () →
      PersistenceManager.getServerCache st q gk kc gfk gap
        = some ⟨EMPTY_NODE, false, false⟩) ∧
    (∀ tq, st.isCompleteTQ q = some true → st.findTQ q = some tq →
      (!q.loadsAllData && tq.complete) = true → gk tq.id = .error () →
      PersistenceManager.getServerCache st q gk kc gfk gap
        = some ⟨EMPTY_NODE, false, false⟩) ∧
    (∀ tq ks, st.isCompleteTQ q = some true → st.findTQ q = some tq →
      (!q.loadsAllData && tq.complete) = true → gk tq.id = .ok ks → gfk ks = .error () →
      PersistenceManager.getServerCache st q gk kc gfk gap
        = some ⟨EMPTY_NODE, false, false⟩) ∧
    (∀ tq, st.isCompleteTQ q = some true → st.findTQ q = some tq →
      (!q.loadsAllData && tq.complete) = false → gap = .error () →
      PersistenceManager.getServerCache st q gk kc gfk gap
        = some ⟨EMPTY_NODE, false, false⟩) := by
  refine ⟨?_, ?_, ?_, ?_, ?_⟩
  · intro h1 h2
    simp [PersistenceManager.getServerCache, h1, h2, getServerCacheFinish, Except.bind]
  · intro ks h1 h2 h3
    simp [PersistenceManager.getServerCache, h1, h2, h3, getServerCacheFinish, Except.bind]
  · intro tq h1 h2 h3 h4
    simp [PersistenceManager.getServerCache, h1, h2, h3, h4, getServerCacheFinish, Except.bind]
  · intro tq ks h1 h2 h3 h4 h5
    simp [PersistenceManager.getServerCache, h1, h2, h3, h4, h5, getServerCacheFinish,
      Except.bind]
  · intro tq h1 h2 h3 h4
    simp [PersistenceManager.getServerCache, h1, h2, h3, h4, getServerCacheFinish, Except.bind]

/-- Witness for C8: a tracked-but-incomplete filtered query whose
known-complete-children read rejects. -/
theorem claim8_witness :
    PersistenceManager.getServerCache
        ⟨1, [((["a"], "q1"), ⟨0, ⟨["a"], "q1", false, false⟩, 0, true, false⟩)]⟩
        ⟨["a"], "q1", false, false⟩ (fun _ => .ok []) (.error ())
        (fun _ => .ok EMPTY_NODE) (.ok EMPTY_NODE)
      = some ⟨EMPTY_NODE, false, false⟩ :=
  (claim8_getServerCache_failure _ _ _ _ _ _).1 (by decide) rfl

/-! ## Claim C2: pruneCache removes exactly the prune-marked keys -/

theorem filterMap_removeKey (pr : StoreKey → Bool) :
    ∀ ks : List StoreKey,
      (ks.filterMap fun k => if pr k then some (StoreOp.removeKey k) else none)
        = (ks.filter pr).map StoreOp.removeKey := by
  intro ks
  induction ks with
  | nil => simp
  | cons k t ih => by_cases h : pr k <;> simp [h, ih]

theorem applyOps_removeKeys :
    ∀ (K : List StoreKey) (st : Store),
      applyOps (K.map StoreOp.removeKey) st
        = st.filter (fun kv => !(K.contains kv.1)) := by
  intro K
  induction K with
  | nil => intro st; simp [applyOps]
  | cons k t ih =>
      intro st
      simp only [List.map_cons, applyOps, List.foldl_cons]
      have hstep : applyOp st (.removeKey k) = st.filter (fun kv => !(kv.1 == k)) := rfl
      rw [hstep]
      have := ih (st.filter (fun kv => !(kv.1 == k)))
      simp only [applyOps] at this
      rw [this, List.filter_filter]
      apply List.filter_congr
      intro kv _
      rw [List.contains_cons, Bool.not_or, Bool.and_comm]

theorem storeGetAll_nil_prefix (st : Store) : storeGetAll st [] = st := by
  unfold storeGetAll
  apply List.filter_eq_self.mpr
  intro kv _
  simp [List.isPrefixOf]

/-- Claim C2: after `ServerCacheStore.pruneCache(forest, Empty)` the store
holds exactly the entries whose key the forest does not mark for pruning:
the surviving entries are the filter by `!shouldPruneUnkeptDescendants`
(so exactly the keys with leaf-most forest value `prune` were removed),
and every remaining key `rp` satisfies
`!forest.shouldPruneUnkeptDescendants(rp)`. -/
theorem claim2_pruneCache_exact (forest : PruneForest) (st : Store) :
    ServerCacheStore.pruneCache forest [] st
      = st.filter (fun kv => !(forest.shouldPruneUnkeptDescendants kv.1)) ∧
    ∀ kv ∈ ServerCacheStore.pruneCache forest [] st,
      forest.shouldPruneUnkeptDescendants kv.1 = false := by
  have hops : ServerCacheStore.pruneCacheOps forest [] st
      = ((st.map (fun kv => kv.1)).filter
          (fun k => forest.shouldPruneUnkeptDescendants k)).map StoreOp.removeKey := by
    unfold ServerCacheStore.pruneCacheOps
    rw [filterMap_removeKey, storeGetAll_nil_prefix]
    simp
  have hmain : ServerCacheStore.pruneCache forest [] st
      = st.filter (fun kv => !(forest.shouldPruneUnkeptDescendants kv.1)) := by
    unfold ServerCacheStore.pruneCache
    rw [hops, applyOps_removeKeys]
    apply List.filter_congr
    intro kv hkv
    congr 1
    rcases hsp : forest.shouldPruneUnkeptDescendants kv.1 with _ | _
    · have hnmem : ¬ kv.1 ∈ (st.map (fun kv => kv.1)).filter
          (fun k => forest.shouldPruneUnkeptDescendants k) := by
        intro hmem
        have := List.of_mem_filter hmem
        rw [hsp] at this
        exact Bool.false_ne_true this
      rcases hc : List.contains ((st.map (fun kv => kv.1)).filter
          (fun k => forest.shouldPruneUnkeptDescendants k)) kv.1 with _ | _
      · exact hc
      · exact absurd (List.elem_iff.mp hc) hnmem
    · have hmem : kv.1 ∈ (st.map (fun kv => kv.1)).filter
          (fun k => forest.shouldPruneUnkeptDescendants k) :=
        List.mem_filter.mpr ⟨List.mem_map_of_mem _ hkv, hsp⟩
      exact List.elem_iff.mpr hmem
  exact ⟨hmain, by
    intro kv hkv
    rw [hmain] at hkv
    have := List.of_mem_filter hkv
    simpa using this⟩

/-! ## Claims C5 and C10: tracked-query manager invariants -/

theorem initFold_none (now : Nat) :
    ∀ loaded : List TrackedQuery, List.foldl (initStep now) none loaded = none := by
  intro loaded
  induction loaded with
  | nil => rfl
  | cons tq t ih => simpa [initStep] using ih

theorem initFold_aux (now : Nat) :
    ∀ (loaded : List TrackedQuery) (st0 : TQMState) (saves0 : List TrackedQuery)
      (st : TQMState) (saves : List TrackedQuery),
      List.foldl (initStep now) (some (st0, saves0)) loaded = some (st, saves) →
      ((∀ e ∈ st0.entries, e.2.active = false) → ∀ e ∈ st.entries, e.2.active = false) ∧
      saves0 <+: saves ∧
      (∀ tq ∈ loaded, tq.active = true →
        { tq with active := false, lastUse := now } ∈ saves) ∧
      ((∀ e ∈ st0.entries, e.2.id < st0.nextId) → ∀ e ∈ st.entries, e.2.id < st.nextId) ∧
      st0.nextId ≤ st.nextId := by
  intro loaded
  induction loaded with
  | nil =>
      intro st0 saves0 st saves h
      simp only [List.foldl_nil, Option.some.injEq, Prod.mk.injEq] at h
      obtain ⟨h1, h2⟩ := h
      subst h1
      subst h2
      exact ⟨fun h => h, List.prefix_rfl, by simp, fun h => h, le_refl _⟩
  | cons tq t ih =>
      intro st0 saves0 st saves h
      rw [List.foldl_cons] at h
      simp only [initStep] at h
      by_cases hact : tq.active = true
      · simp only [hact, if_true] at h
        by_cases hca : cacheAssertOk { tq with active := false, lastUse := now } = true
        · simp only [hca, if_true] at h
          obtain ⟨ha, hb, hc, hd, he⟩ := ih _ _ _ _ h
          refine ⟨?_, ?_, ?_, ?_, ?_⟩
          · intro h0
            apply ha
            intro e hmem
            simp only [TQMState.cacheTQ] at hmem
            rcases mem_upsertKey _ _ _ _ hmem with hm | hm
            · exact h0 e hm
            · subst hm; rfl
          · exact List.IsPrefix.trans (List.prefix_append saves0 _) hb
          · intro tq' hmem hact'
            rcases List.mem_cons.mp hmem with hm | hm
            · subst hm
              exact hb.subset (List.mem_append_right _ (List.mem_singleton_self _))
            · exact hc tq' hm hact'
          · intro h0
            apply hd
            intro e hmem
            simp only [TQMState.cacheTQ] at hmem
            rcases mem_upsertKey _ _ _ _ hmem with hm | hm
            · have hlt := h0 e hm
              calc e.2.id < st0.nextId := hlt
                _ ≤ max (tq.id + 1) st0.nextId := le_max_right _ _
            · subst hm
              calc tq.id < tq.id + 1 := Nat.lt_succ_self _
                _ ≤ max (tq.id + 1) st0.nextId := le_max_left _ _
          · calc st0.nextId ≤ max (tq.id + 1) st0.nextId := le_max_right _ _
              _ ≤ st.nextId := he
        · simp only [hca, Bool.false_eq_true, if_false, initFold_none] at h
          exact absurd h (by simp)
      · have hactf : tq.active = false := by
          rcases hb : tq.active
          · rfl
          · exact absurd hb hact
        simp only [hactf, Bool.false_eq_true, if_false] at h
        by_cases hca : cacheAssertOk tq = true
        · simp only [hca, if_true] at h
          obtain ⟨ha, hb, hc, hd, he⟩ := ih _ _ _ _ h
          refine ⟨?_, hb, ?_, ?_, ?_⟩
          · intro h0
            apply ha
            intro e hmem
            simp only [TQMState.cacheTQ] at hmem
            rcases mem_upsertKey _ _ _ _ hmem with hm | hm
            · exact h0 e hm
            · subst hm
              exact hactf
          · intro tq' hmem hact'
            rcases List.mem_cons.mp hmem with hm | hm
            · subst hm; exact absurd hact' hact
            · exact hc tq' hm hact'
          · intro h0
            apply hd
            intro e hmem
            simp only [TQMState.cacheTQ] at hmem
            rcases mem_upsertKey _ _ _ _ hmem with hm | hm
            · have hlt := h0 e hm
              calc e.2.id < st0.nextId := hlt
                _ ≤ max (tq.id + 1) st0.nextId := le_max_right _ _
            · subst hm
              calc tq.id < tq.id + 1 := Nat.lt_succ_self _
                _ ≤ max (tq.id + 1) st0.nextId := le_max_left _ _
          · calc st0.nextId ≤ max (tq.id + 1) st0.nextId := le_max_right _ _
              _ ≤ st.nextId := he
        · simp only [hca, Bool.false_eq_true, if_false, initFold_none] at h
          exact absurd h (by simp)

/-- Claim C5: when the `TrackedQueryManager` constructor's load completes,
every tracked query the manager holds is inactive, and every loaded query
that was persisted `active = true` has been flipped to inactive with
`lastUse` set to the load time and saved back to the store. -/
theorem claim5_init_inactivates (loaded : List TrackedQuery) (now : Nat)
    (st : TQMState) (saves : List TrackedQuery)
    (h : initTQM loaded now = some (st, saves)) :
    (∀ e ∈ st.entries, e.2.active = false) ∧
    (∀ tq ∈ loaded, tq.active = true →
      { tq with active := false, lastUse := now } ∈ saves) := by
  obtain ⟨ha, _, hc, _, _⟩ := initFold_aux now loaded ⟨0, []⟩ [] st saves h
  exact ⟨ha (by simp), hc⟩

/-- Witness for C5: one persisted active tracked query. -/
theorem claim5_witness :
    (∀ e ∈ (⟨1, [((["a"], defaultIdentifier),
        ⟨0, Query.defaultAtPath ["a"], 42, false, false⟩)]⟩ : TQMState).entries,
      e.2.active = false) ∧
    (∀ tq ∈ [(⟨0, Query.defaultAtPath ["a"], 5, true, false⟩ : TrackedQuery)],
      tq.active = true →
      { tq with active := false, lastUse := 42 } ∈
        [(⟨0, Query.defaultAtPath ["a"], 42, false, false⟩ : TrackedQuery)]) :=
  claim5_init_inactivates [⟨0, Query.defaultAtPath ["a"], 5, true, false⟩] 42
    ⟨1, [((["a"], defaultIdentifier), ⟨0, Query.defaultAtPath ["a"], 42, false, false⟩)]⟩
    [⟨0, Query.defaultAtPath ["a"], 42, false, false⟩] (by decide)

theorem pruneFold_none :
    ∀ l : List TrackedQuery, List.foldl pruneStep none l = none := by
  intro l
  induction l with
  | nil => rfl
  | cons tq t ih => simpa [pruneStep] using ih

theorem pruneFold_aux :
    ∀ (l : List TrackedQuery) (f : PruneForest) (s : TQMState) (r : PruneForest × TQMState),
      List.foldl pruneStep (some (f, s)) l = some r →
      r.2.nextId = s.nextId ∧ ∀ e ∈ r.2.entries, e ∈ s.entries := by
  intro l
  induction l with
  | nil =>
      intro f s r h
      simp only [List.foldl_nil, Option.some.injEq] at h
      subst h
      exact ⟨rfl, fun e he => he⟩
  | cons tq t ih =>
      intro f s r h
      rw [List.foldl_cons] at h
      simp only [pruneStep] at h
      rcases h1 : PruneForest.prunePath f tq.query.path with _ | f1
      · rw [h1] at h
        simp only [pruneFold_none] at h
        exact absurd h (by simp)
      · rw [h1] at h
        rcases h2 : TQMState.removeTQ s tq.query with _ | s1
        · rw [h2] at h
          simp only [pruneFold_none] at h
          exact absurd h (by simp)
        · rw [h2] at h
          obtain ⟨ha, hb⟩ := ih _ _ _ h
          have hs1 : s1.nextId = s.nextId ∧ ∀ e ∈ s1.entries, e ∈ s.entries := by
            simp only [TQMState.removeTQ] at h2
            rcases h3 : TQMState.findTQ s (normalizeQuery tq.query) with _ | tqf
            · rw [h3] at h2
              exact absurd h2 (by simp)
            · rw [h3] at h2
              simp only [Option.some.injEq] at h2
              subst h2
              exact ⟨rfl, fun e he => mem_removeKeyList _ _ _ he⟩
          exact ⟨ha.trans hs1.1, fun e he => hs1.2 e (hb e he)⟩

/-- Claim C10: after `TrackedQueryManager` initialization, `nextId` is
strictly greater than the id of every tracked query held; this is
preserved by `setActiveState_` (hence `setActive`/`setInactive`),
`ensureComplete` and `pruneOld`; consequently a newly created tracked
query's id (`nextId`) differs from every held id. -/
theorem claim10_nextId_invariant :
    (∀ (loaded : List TrackedQuery) (now : Nat) (st : TQMState)
        (saves : List TrackedQuery), initTQM loaded now = some (st, saves) →
        ∀ e ∈ st.entries, e.2.id < st.nextId) ∧
    (∀ (st : TQMState) (q : Query) (active : Bool) (now : Nat) (st' : TQMState),
        (∀ e ∈ st.entries, e.2.id < st.nextId) →
        st.setActiveState q active now = some st' →
        ∀ e ∈ st'.entries, e.2.id < st'.nextId) ∧
    (∀ (st : TQMState) (path : List String) (now : Nat) (st' : TQMState),
        (∀ e ∈ st.entries, e.2.id < st.nextId) →
        st.ensureComplete path now = some st' →
        ∀ e ∈ st'.entries, e.2.id < st'.nextId) ∧
    (∀ (st : TQMState) (policy : CachePolicy) (r : PruneForest × TQMState),
        (∀ e ∈ st.entries, e.2.id < st.nextId) →
        st.pruneOld policy = some r →
        ∀ e ∈ r.2.entries, e.2.id < r.2.nextId) ∧
    (∀ st : TQMState, (∀ e ∈ st.entries, e.2.id < st.nextId) →
        ∀ e ∈ st.entries, e.2.id ≠ st.nextId) := by
  refine ⟨?_, ?_, ?_, ?_, ?_⟩
  · intro loaded now st saves h
    exact (initFold_aux now loaded ⟨0, []⟩ [] st saves h).2.2.2.1 (by simp)
  · intro st q active now st' hinv h
    simp only [TQMState.setActiveState] at h
    rcases hf : TQMState.findTQ st (normalizeQuery q) with _ | tqf
    · rw [hf] at h
      by_cases hact : active = true
      · simp only [hact, if_true, Option.some.injEq] at h
        subst h
        intro e hmem
        simp only [TQMState.cacheTQ] at hmem
        rcases mem_upsertKey _ _ _ _ hmem with hm | hm
        · exact lt_trans (hinv e hm) (Nat.lt_succ_self _)
        · subst hm
          exact Nat.lt_succ_self _
      · have : active = false := by
          rcases hb : active
          · rfl
          · exact absurd hb hact
        simp only [this, Bool.false_eq_true, if_false] at h
        exact absurd h (by simp)
    · rw [hf] at h
      simp only [Option.some.injEq] at h
      subst h
      intro e hmem
      simp only [TQMState.updateEntry] at hmem
      rcases List.mem_map.mp hmem with ⟨e0, he0, heq⟩
      by_cases hk : e0.1 = ((normalizeQuery q).path, (normalizeQuery q).queryId)
      · rw [if_pos hk] at heq
        subst heq
        exact hinv e0 he0
      · rw [if_neg hk] at heq
        subst heq
        exact hinv e0 he0
  · intro st path now st' hinv h
    simp only [TQMState.ensureComplete] at h
    by_cases hincl : TQMState.isIncludedInDefaultCompleteQuery st path = true
    · simp only [hincl, if_true, Option.some.injEq] at h
      subst h
      exact hinv
    · have hincl' : TQMState.isIncludedInDefaultCompleteQuery st path = false := by
        rcases hb : TQMState.isIncludedInDefaultCompleteQuery st path
        · rfl
        · exact absurd hb hincl
      simp only [hincl', Bool.false_eq_true, if_false] at h
      rcases hf : TQMState.findTQ st (Query.defaultAtPath path) with _ | tqf
      · rw [hf] at h
        simp only [Option.some.injEq] at h
        subst h
        intro e hmem
        simp only [TQMState.cacheTQ] at hmem
        rcases mem_upsertKey _ _ _ _ hmem with hm | hm
        · exact lt_trans (hinv e hm) (Nat.lt_succ_self _)
        · subst hm
          exact Nat.lt_succ_self _
      · rw [hf] at h
        by_cases hcomp : tqf.complete = true
        · simp only [hcomp, if_true] at h
          exact absurd h (by simp)
        · have : tqf.complete = false := by
            rcases hb : tqf.complete
            · rfl
            · exact absurd hb hcomp
          simp only [this, Bool.false_eq_true, if_false, Option.some.injEq] at h
          subst h
          intro e hmem
          simp only [TQMState.updateEntry] at hmem
          rcases List.mem_map.mp hmem with ⟨e0, he0, heq⟩
          by_cases hk : e0.1 = (path, defaultIdentifier)
          · rw [if_pos hk] at heq
            subst heq
            exact hinv e0 he0
          · rw [if_neg hk] at heq
            subst heq
            exact hinv e0 he0
  · intro st policy r hinv h
    simp only [TQMState.pruneOld] at h
    obtain ⟨r0, hfold, hr⟩ := Option.map_eq_some'.mp h
    obtain ⟨ha, hb⟩ := pruneFold_aux _ _ _ _ hfold
    intro e hmem
    have hr2 : r.2 = r0.2 := by rw [← hr]
    rw [hr2] at hmem ⊢
    rw [ha]
    exact hinv e (hb e hmem)
  · intro st hinv e hmem
    exact Nat.ne_of_lt (hinv e hmem)

/-- Witness for C10: `setActive` on an already-tracked query keeps
`nextId` above every held id. -/
theorem claim10_witness :
    ∀ e ∈ (⟨1, [((["a"], defaultIdentifier),
        ⟨0, Query.defaultAtPath ["a"], 9, true, false⟩)]⟩ : TQMState).entries,
      e.2.id < (⟨1, [((["a"], defaultIdentifier),
        ⟨0, Query.defaultAtPath ["a"], 9, true, false⟩)]⟩ : TQMState).nextId :=
  claim10_nextId_invariant.2.1
    ⟨1, [((["a"], defaultIdentifier), ⟨0, Query.defaultAtPath ["a"], 5, false, false⟩)]⟩
    (Query.defaultAtPath ["a"]) true 9
    ⟨1, [((["a"], defaultIdentifier), ⟨0, Query.defaultAtPath ["a"], 9, true, false⟩)]⟩
    (by decide) (by decide)

/-! ## Claim C1 (refuted by the code): pruneOld prunes *active* queries -/

theorem bug_numToPrune : (numQueriesToPrune bugPolicy 1).toNat = 1 := by
  norm_num [numQueriesToPrune, bugPolicy]

/-- Claim C1 is false of the code: `bugState` holds a single *active*
tracked query (so `numPrunableQueries` reports zero prunable queries), yet
`pruneOld` removes that active query from the manager and marks its path
`prune` (not `keep`) in the returned forest — the partition in
`TrackedQueryManager.pruneOld` tests `trackedQuery.active` the wrong way
around. -/
theorem claim1_pruneOld_prunes_active :
    TQMState.numPrunableQueries bugState = 0 ∧
    (TQMState.findTQ bugState bugQuery).map (fun tq => tq.active) = some true ∧
    (TQMState.pruneOld bugState bugPolicy).map (fun r =>
        ((r.2.findTQ bugQuery).isNone, r.1.shouldPruneUnkeptDescendants ["foo"]))
      = some (true, true) := by
  refine ⟨by decide, by decide, ?_⟩
  have hl : sortByLastUse ((bugState.entries.map (fun e => e.2)).filter
      (fun tq => tq.active)) = [bugTQ] := by decide
  simp only [TQMState.pruneOld, hl, List.length_cons, List.length_nil, Nat.zero_add,
    bug_numToPrune]
  decide

/-! ## Claim C6: at most one complete view per sync point -/

theorem lookupKey_eq_none_iff {κ β : Type} [DecidableEq κ] :
    ∀ (l : List (κ × β)) (k : κ), lookupKey l k = none ↔ k ∉ l.map Prod.fst := by
  intro l
  induction l with
  | nil => intro k; simp [lookupKey]
  | cons e rest ih =>
      intro k
      cases e with
      | mk k' v' =>
          by_cases he : k' = k
          · subst he
            simp [lookupKey]
          · simp [lookupKey, he, ih, Ne.symm he]

theorem lookupKey_of_mem_nodup {κ β : Type} [DecidableEq κ] :
    ∀ (l : List (κ × β)) (k : κ) (v : β), (l.map Prod.fst).Nodup → (k, v) ∈ l →
      lookupKey l k = some v := by
  intro l
  induction l with
  | nil => intro k v _ hm; simp at hm
  | cons e rest ih =>
      intro k v hnd hm
      cases e with
      | mk k' v' =>
          simp only [List.map_cons, List.nodup_cons] at hnd
          rcases List.mem_cons.mp hm with hm | hm
          · injection hm with h1 h2
            subst h1
            subst h2
            simp [lookupKey]
          · have hk : k' ≠ k := by
              intro hk
              subst hk
              exact hnd.1 (List.mem_map_of_mem Prod.fst hm)
            simp only [lookupKey, if_neg hk]
            exact ih k v hnd.2 hm

theorem upsertKey_map_of_lookup {κ β γ : Type} [DecidableEq κ] (g : κ × β → γ) :
    ∀ (l : List (κ × β)) (k : κ) (v v' : β), lookupKey l k = some v →
      g (k, v') = g (k, v) → (upsertKey l k v').map g = l.map g := by
  intro l
  induction l with
  | nil => intro k v v' h; simp [lookupKey] at h
  | cons e rest ih =>
      intro k v v' h hg
      cases e with
      | mk k0 v0 =>
          by_cases he : k0 = k
          · subst he
            have hv : v0 = v := by simpa [lookupKey] using h
            subst hv
            simp only [upsertKey]
            simp only [if_true]
            simp only [List.map_cons]
            rw [hg]
          · simp only [lookupKey, if_neg he] at h
            simp only [upsertKey, if_neg he, List.map_cons]
            rw [ih k v v' h hg]

theorem countP_upsertKey_existing {κ β : Type} [DecidableEq κ] (p : κ × β → Bool) :
    ∀ (l : List (κ × β)) (k : κ) (v v' : β),
      (l.map Prod.fst).Nodup → lookupKey l k = some v →
      (upsertKey l k v').countP p + (if p (k, v) then 1 else 0)
        = l.countP p + (if p (k, v') then 1 else 0) := by
  intro l
  induction l with
  | nil => intro k v v' _ h; simp [lookupKey] at h
  | cons e rest ih =>
      intro k v v' hnd h
      cases e with
      | mk k0 v0 =>
          simp only [List.map_cons, List.nodup_cons] at hnd
          by_cases he : k0 = k
          · subst he
            have hv : v0 = v := by simpa [lookupKey] using h
            subst hv
            simp only [upsertKey]
            simp only [if_true]
            simp only [List.countP_cons]
            omega
          · simp only [lookupKey, if_neg he] at h
            simp only [upsertKey, if_neg he, List.countP_cons]
            have := ih k v v' hnd.2 h
            omega

theorem countP_append_singleton {κ β : Type} (p : κ × β → Bool) (l : List (κ × β))
    (e : κ × β) : (l ++ [e]).countP p = l.countP p + (if p e then 1 else 0) := by
  simp [List.countP_append, List.countP_cons]

theorem completeCount_eq_countP (sp : SyncPointState) :
    sp.completeCount = sp.views.countP (fun kv => kv.2.query.loadsAllData) := by
  simp [SyncPointState.completeCount, List.countP_eq_length_filter]

theorem getCompleteView_none_iff (sp : SyncPointState) :
    sp.getCompleteView = none ↔ sp.completeCount = 0 := by
  rw [SyncPointState.getCompleteView, List.find?_eq_none, completeCount_eq_countP]
  rw [List.countP_eq_zero]

theorem removeReg_query (v : View) (reg : Option Nat) :
    (v.removeReg reg).query = v.query := by
  cases reg <;> rfl


theorem countP_upsertKey_same {κ β : Type} [DecidableEq κ] (p : κ × β → Bool)
    (l : List (κ × β)) (k : κ) (v v' : β)
    (hnd : (l.map Prod.fst).Nodup) (hlk : lookupKey l k = some v)
    (hp : p (k, v') = p (k, v)) :
    (upsertKey l k v').countP p = l.countP p := by
  have h := countP_upsertKey_existing p l k v v' hnd hlk
  rw [hp] at h
  omega

theorem countP_upsertKey_incr {κ β : Type} [DecidableEq κ] (p : κ × β → Bool)
    (l : List (κ × β)) (k : κ) (v v' : β)
    (hnd : (l.map Prod.fst).Nodup) (hlk : lookupKey l k = some v)
    (hpv : p (k, v) = false) (hpv' : p (k, v') = true) :
    (upsertKey l k v').countP p = l.countP p + 1 := by
  have h := countP_upsertKey_existing p l k v v' hnd hlk
  rw [hpv, hpv'] at h
  simp only [Bool.false_eq_true, if_false, if_true] at h
  omega

theorem removeEventRegistration_fst (sp : SyncPointState) (rq : Query)
    (rem : Option Nat) :
    (sp.removeEventRegistration rq rem).1 =
      if rq.queryId = defaultIdentifier then
        ⟨(sp.views.map (fun kv => (kv.1, kv.2.removeReg rem))).filter
          (fun kv => !kv.2.regs.isEmpty)⟩
      else
        match lookupKey sp.views rq.queryId with
        | none => sp
        | some v =>
            if (v.removeReg rem).regs.isEmpty then ⟨removeKeyList sp.views rq.queryId⟩
            else ⟨upsertKey sp.views rq.queryId (v.removeReg rem)⟩ := by
  unfold SyncPointState.removeEventRegistration
  by_cases hd : rq.queryId = defaultIdentifier
  · simp [hd]
  · simp only [if_neg hd]
    rcases hlk : lookupKey sp.views rq.queryId with _ | v
    · simp
    · by_cases hemp : (v.removeReg rem).regs.isEmpty
      · simp [hemp]
      · simp [hemp]

/-- Claim C6: a sync point has at most one complete view (a view whose
query loads all data); the invariant is preserved by
`addEventRegistration` — which reuses the existing complete view for any
query that loads all data rather than creating a second one — and by
`removeEventRegistration`. -/
theorem claim6_complete_view_invariant (sp : SyncPointState) (q : Query) (reg : Nat)
    (rq : Query) (rem : Option Nat) (h : sp.invariantSP) :
    (sp.addEventRegistration q reg).invariantSP ∧
    (sp.removeEventRegistration rq rem).1.invariantSP ∧
    (q.loadsAllData = true → sp.getCompleteView.isSome = true →
      (sp.addEventRegistration q reg).views.map (fun kv => (kv.1, kv.2.query))
        = sp.views.map (fun kv => (kv.1, kv.2.query))) := by
  obtain ⟨hnd, hcnt⟩ := h
  rw [completeCount_eq_countP] at hcnt
  have hkeys_upsert_same : ∀ (vid : String) (v v' : View),
      lookupKey sp.views vid = some v →
      ((upsertKey sp.views vid v').map Prod.fst).Nodup := by
    intro vid v v' hlk
    rw [upsertKey_map_of_lookup Prod.fst sp.views vid v v' hlk rfl]
    exact hnd
  have hinv_upsert_same : ∀ (vid : String) (v v' : View),
      lookupKey sp.views vid = some v → v'.query = v.query →
      (SyncPointState.mk (upsertKey sp.views vid v')).invariantSP := by
    intro vid v v' hlk hq
    refine ⟨hkeys_upsert_same vid v v' hlk, ?_⟩
    rw [completeCount_eq_countP]
    show List.countP (fun kv : String × View => kv.2.query.loadsAllData)
      (upsertKey sp.views vid v') ≤ 1
    have := countP_upsertKey_same (fun kv : String × View => kv.2.query.loadsAllData)
      sp.views vid v v' hnd hlk (by simp [hq])
    omega
  have hinv_sub : ∀ (l : List (String × View)),
      l.Sublist sp.views → (SyncPointState.mk l).invariantSP := by
    intro l hsub
    refine ⟨List.Nodup.sublist (List.Sublist.map Prod.fst hsub) hnd, ?_⟩
    rw [completeCount_eq_countP]
    calc l.countP (fun kv => kv.2.query.loadsAllData)
        ≤ sp.views.countP (fun kv => kv.2.query.loadsAllData) := hsub.countP_le _
      _ ≤ 1 := hcnt
  refine ⟨?_, ?_, ?_⟩
  · -- addEventRegistration preserves the invariant
    unfold SyncPointState.addEventRegistration
    cases hview : sp.viewEntryForQuery q with
    | some e =>
        cases e with
        | mk vid v =>
            have hlk : lookupKey sp.views vid = some v := by
              by_cases hl : q.loadsAllData = true
              · unfold SyncPointState.viewEntryForQuery at hview
                rw [if_pos hl] at hview
                exact lookupKey_of_mem_nodup _ _ _ hnd (List.mem_of_find?_eq_some hview)
              · unfold SyncPointState.viewEntryForQuery at hview
                rw [if_neg hl] at hview
                rcases hlk0 : lookupKey sp.views q.queryId with _ | v1
                · rw [hlk0] at hview
                  simp at hview
                · rw [hlk0] at hview
                  simp at hview
                  obtain ⟨h1, h2⟩ := hview
                  subst h1
                  subst h2
                  exact hlk0
            exact hinv_upsert_same vid v _ hlk rfl
    | none =>
        cases hlk : lookupKey sp.views q.queryId with
        | none =>
            constructor
            · rw [upsertKey_of_lookup_none _ _ _ hlk]
              simp only [List.map_append, List.map_cons, List.map_nil]
              rw [List.nodup_append]
              refine ⟨hnd, List.nodup_singleton _, ?_⟩
              intro a ha hb
              simp only [List.mem_singleton] at hb
              subst hb
              exact (lookupKey_eq_none_iff _ _).mp hlk ha
            · rw [completeCount_eq_countP]
              simp only
              rw [upsertKey_of_lookup_none _ _ _ hlk, countP_append_singleton]
              by_cases hl : q.loadsAllData = true
              · have hnone : sp.getCompleteView = none := by
                  unfold SyncPointState.viewEntryForQuery at hview
                  rw [if_pos hl] at hview
                  exact hview
                have hzero := (getCompleteView_none_iff sp).mp hnone
                rw [completeCount_eq_countP] at hzero
                split <;> omega
              · have hl' : q.loadsAllData = false := by
                  rcases hb : q.loadsAllData
                  · rfl
                  · exact absurd hb hl
                split
                · rename_i hcond
                  exact absurd hcond hl
                · omega
        | some v0 =>
            -- a view under this identifier exists, yet viewForQuery found
            -- nothing: the query loads all data and no complete view exists
            have hl : q.loadsAllData = true := by
              by_contra hl
              unfold SyncPointState.viewEntryForQuery at hview
              rw [if_neg hl, hlk] at hview
              simp at hview
            have hnone : sp.getCompleteView = none := by
              unfold SyncPointState.viewEntryForQuery at hview
              rw [if_pos hl] at hview
              exact hview
            have hzero := (getCompleteView_none_iff sp).mp hnone
            rw [completeCount_eq_countP] at hzero
            have hv0 : v0.query.loadsAllData = false := by
              rcases hb : v0.query.loadsAllData with _ | _
              · rfl
              · exact absurd hb
                  (List.countP_eq_zero.mp hzero _ (lookupKey_mem _ _ _ hlk))
            constructor
            · exact hkeys_upsert_same _ _ _ hlk
            · rw [completeCount_eq_countP]
              simp only
              have := countP_upsertKey_incr
                (fun kv : String × View => kv.2.query.loadsAllData)
                sp.views q.queryId v0 ⟨q, [reg]⟩ hnd hlk hv0 hl
              omega
  · -- removeEventRegistration preserves the invariant
    rw [removeEventRegistration_fst]
    by_cases hd : rq.queryId = defaultIdentifier
    · rw [if_pos hd]
      have hsub : List.Sublist
          ((sp.views.map (fun kv => (kv.1, kv.2.removeReg rem))).filter
            (fun kv => !kv.2.regs.isEmpty))
          (sp.views.map (fun kv => (kv.1, kv.2.removeReg rem))) :=
        List.filter_sublist _
      constructor
      · apply List.Nodup.sublist (List.Sublist.map Prod.fst hsub)
        rw [List.map_map]
        exact hnd
      · rw [completeCount_eq_countP]
        simp only
        calc ((sp.views.map (fun kv => (kv.1, kv.2.removeReg rem))).filter
                (fun kv => !kv.2.regs.isEmpty)).countP
              (fun kv => kv.2.query.loadsAllData)
            ≤ (sp.views.map (fun kv => (kv.1, kv.2.removeReg rem))).countP
              (fun kv => kv.2.query.loadsAllData) := hsub.countP_le _
          _ = sp.views.countP (fun kv => kv.2.query.loadsAllData) := by
              rw [List.countP_map]
              apply List.countP_congr
              intro kv _
              simp [Function.comp, removeReg_query]
          _ ≤ 1 := hcnt
    · rw [if_neg hd]
      cases hlk : lookupKey sp.views rq.queryId with
      | none => exact ⟨hnd, by rw [completeCount_eq_countP]; exact hcnt⟩
      | some v =>
          show (if (v.removeReg rem).regs.isEmpty = true then
              (⟨removeKeyList sp.views rq.queryId⟩ : SyncPointState)
            else ⟨upsertKey sp.views rq.queryId (v.removeReg rem)⟩).invariantSP
          by_cases hemp : (v.removeReg rem).regs.isEmpty = true
          · rw [if_pos hemp]
            exact hinv_sub _ (List.filter_sublist _)
          · rw [if_neg hemp]
            exact hinv_upsert_same _ _ _ hlk (removeReg_query v rem)
  · -- an existing complete view is reused for any loadsAllData query
    intro hl hsome
    cases hcv : sp.getCompleteView with
    | none =>
        rw [hcv] at hsome
        simp at hsome
    | some e =>
        unfold SyncPointState.addEventRegistration
        have hview : sp.viewEntryForQuery q = some e := by
          unfold SyncPointState.viewEntryForQuery
          rw [if_pos hl]
          exact hcv
        rw [hview]
        cases e with
        | mk vid v =>
            have hlk : lookupKey sp.views vid = some v :=
              lookupKey_of_mem_nodup _ _ _ hnd (List.mem_of_find?_eq_some hcv)
            simp only
            exact upsertKey_map_of_lookup _ _ _ _ _ hlk rfl

/-- Witness for C6 at a concrete one-view sync point. -/
theorem claim6_witness :
    ((⟨[("default", ⟨Query.defaultAtPath ["a"], [1]⟩)]⟩ :
        SyncPointState).addEventRegistration (Query.defaultAtPath ["a"]) 2).invariantSP ∧
    ((⟨[("default", ⟨Query.defaultAtPath ["a"], [1]⟩)]⟩ :
        SyncPointState).removeEventRegistration (Query.defaultAtPath ["a"])
          (some 1)).1.invariantSP ∧
    ((Query.defaultAtPath ["a"]).loadsAllData = true →
      (⟨[("default", ⟨Query.defaultAtPath ["a"], [1]⟩)]⟩ :
        SyncPointState).getCompleteView.isSome = true →
      ((⟨[("default", ⟨Query.defaultAtPath ["a"], [1]⟩)]⟩ :
          SyncPointState).addEventRegistration (Query.defaultAtPath ["a"]) 2).views.map
            (fun kv => (kv.1, kv.2.query))
        = (⟨[("default", ⟨Query.defaultAtPath ["a"], [1]⟩)]⟩ :
            SyncPointState).views.map (fun kv => (kv.1, kv.2.query))) :=
  claim6_complete_view_invariant
    ⟨[("default", ⟨Query.defaultAtPath ["a"], [1]⟩)]⟩
    (Query.defaultAtPath ["a"]) 2 (Query.defaultAtPath ["a"]) (some 1)
    ⟨by decide, by decide⟩

/-! ## Claim C4: restoring persisted user writes -/

theorem insertById_perm (w : PersistedUserWrite) :
    ∀ l, (insertById w l).Perm (w :: l) := by
  intro l
  induction l with
  | nil => simp [insertById]
  | cons v vs ih =>
      by_cases h : w.id < v.id
      · simp [insertById, h]
      · simp only [insertById, if_neg h]
        exact (ih.cons v).trans (List.Perm.swap w v vs)

theorem getAllSorted_perm : ∀ l, (getAllSorted l).Perm l := by
  intro l
  induction l with
  | nil => simp [getAllSorted]
  | cons w ws ih =>
      exact (insertById_perm w (getAllSorted ws)).trans (ih.cons w)

theorem pairwise_insertById (w : PersistedUserWrite) :
    ∀ l, l.Pairwise (fun a b => a.id ≤ b.id) →
      (insertById w l).Pairwise (fun a b => a.id ≤ b.id) := by
  intro l
  induction l with
  | nil => intro _; simp [insertById]
  | cons v vs ih =>
      intro hp
      rcases List.pairwise_cons.mp hp with ⟨hv, hvs⟩
      by_cases h : w.id < v.id
      · simp only [insertById, if_pos h]
        refine List.pairwise_cons.mpr ⟨?_, hp⟩
        intro b hb
        rcases List.mem_cons.mp hb with hb | hb
        · subst hb
          omega
        · have := hv b hb
          omega
      · simp only [insertById, if_neg h]
        refine List.pairwise_cons.mpr ⟨?_, ih hvs⟩
        intro b hb
        rcases List.mem_cons.mp ((insertById_perm w vs).mem_iff.mp hb) with hb | hb
        · subst hb
          omega
        · exact hv b hb

theorem getAllSorted_sorted :
    ∀ l, (getAllSorted l).Pairwise (fun a b => a.id ≤ b.id) := by
  intro l
  induction l with
  | nil => simp [getAllSorted]
  | cons w ws ih => exact pairwise_insertById w (getAllSorted ws) ih

theorem restoreWritesAux_spec :
    ∀ (s : List PersistedUserWrite) (n0 : Nat) (last : Option Nat),
      s.Pairwise (fun a b => a.id < b.id) →
      (∀ w ∈ s, ∀ l, last = some l → l < w.id) →
      restoreWritesAux n0 last s =
        some ((match (s.map (fun w => w.id)).getLast? with
          | some m => m + 1
          | none => n0), s.map (fun w => w.id)) := by
  intro s
  induction s with
  | nil => intro n0 last _ _; simp [restoreWritesAux]
  | cons w ws ih =>
      intro n0 last hp hbound
      rcases List.pairwise_cons.mp hp with ⟨hw, hws⟩
      have hih := ih (w.id + 1) (some w.id) hws (by
        intro v hv l hl
        injection hl with hl
        subst hl
        exact hw v hv)
      have hstep : restoreWritesAux n0 last (w :: ws) =
          (restoreWritesAux (w.id + 1) (some w.id) ws).map
            (fun r => (r.1, w.id :: r.2)) := by
        cases last with
        | none => rfl
        | some l =>
            have hl := hbound w (List.mem_cons_self _ _) l rfl
            simp only [restoreWritesAux, if_pos hl]
      rw [hstep, hih]
      cases ws with
      | nil => simp
      | cons u us =>
          simp only [List.map_cons, List.getLast?_cons_cons, Option.map_some]
          cases hgl : (u.id :: List.map (fun w => w.id) us).getLast? with
          | none =>
              rw [List.getLast?_eq_none_iff] at hgl
              exact absurd hgl (by simp)
          | some m => rfl

theorem le_getLast_of_sorted :
    ∀ (l : List Nat) (h : l ≠ []), l.Pairwise (fun a b => a < b) →
      ∀ x ∈ l, x ≤ l.getLast h := by
  intro l
  induction l with
  | nil => intro h; exact absurd rfl h
  | cons a t ih =>
      intro h hp x hx
      rcases List.pairwise_cons.mp hp with ⟨ha, ht⟩
      rcases List.mem_cons.mp hx with hx | hx
      · subst hx
        cases t with
        | nil => simp [List.getLast]
        | cons b ts =>
            have hmem : (b :: ts).getLast (by simp) ∈ b :: ts :=
              List.getLast_mem _
            have := ha _ hmem
            rw [List.getLast_cons (by simp)]
            omega
      · have hne : t ≠ [] := by
          intro he
          rw [he] at hx
          exact absurd hx (List.not_mem_nil x)
        rw [List.getLast_cons hne]
        exact ih hne ht x hx

/-- Claim C4: with persisted user writes present (distinct ids, nonempty),
`restoreWrites_` over the id-sorted list from `UserWriteStore.getAll` sets
the process's next write id to the maximum persisted id plus one, and
re-applies and re-sends every persisted write in strictly ascending id
order. -/
theorem claim4_restore_writes (items : List PersistedUserWrite) (n0 : Nat)
    (hne : items ≠ []) (hnd : (items.map (fun w => w.id)).Nodup) :
    ∃ M, restoreWrites n0 (getAllSorted items)
        = some (M + 1, (getAllSorted items).map (fun w => w.id)) ∧
      M ∈ items.map (fun w => w.id) ∧ (∀ w ∈ items, w.id ≤ M) ∧
      ((getAllSorted items).map (fun w => w.id)).Pairwise (fun a b => a < b) ∧
      ((getAllSorted items).map (fun w => w.id)).Perm (items.map (fun w => w.id)) := by
  have hperm := getAllSorted_perm items
  have hpermids : ((getAllSorted items).map (fun w => w.id)).Perm
      (items.map (fun w => w.id)) := hperm.map _
  have hndids : ((getAllSorted items).map (fun w => w.id)).Nodup :=
    (List.Perm.nodup_iff hpermids).mpr hnd
  have hstrict : (getAllSorted items).Pairwise (fun a b => a.id < b.id) := by
    have hne' : (getAllSorted items).Pairwise (fun a b => a.id ≠ b.id) :=
      List.pairwise_map.mp hndids
    exact ((getAllSorted_sorted items).and hne').imp
      (fun h => lt_of_le_of_ne h.1 h.2)
  have hsne : getAllSorted items ≠ [] := by
    intro h
    rw [h] at hperm
    exact hne (List.Perm.nil_eq hperm).symm
  have hidsne : (getAllSorted items).map (fun w => w.id) ≠ [] := by
    simpa using hsne
  have hspec := restoreWritesAux_spec (getAllSorted items) n0 none hstrict
    (by intro w _ l hl; cases hl)
  have hstrictids : ((getAllSorted items).map (fun w => w.id)).Pairwise
      (fun a b => a < b) := List.pairwise_map.mpr hstrict
  refine ⟨((getAllSorted items).map (fun w => w.id)).getLast hidsne, ?_, ?_, ?_,
    hstrictids, hpermids⟩
  · unfold restoreWrites
    rw [hspec, List.getLast?_eq_getLast _ hidsne]
  · exact hpermids.mem_iff.mp (List.getLast_mem hidsne)
  · intro w hw
    have hmem : w.id ∈ (getAllSorted items).map (fun w => w.id) :=
      hpermids.mem_iff.mpr (List.mem_map_of_mem _ hw)
    exact le_getLast_of_sorted _ hidsne hstrictids w.id hmem

/-- Witness for C4: two persisted writes with ids 5 and 6 presented out of
order. -/
theorem claim4_witness :
    ∃ M, restoreWrites 0 (getAllSorted
        [⟨6, ["b"], some (.prim (.num 2)), none⟩, ⟨5, ["a"], some (.prim (.num 1)), none⟩])
        = some (M + 1, (getAllSorted
          [⟨6, ["b"], some (.prim (.num 2)), none⟩,
           ⟨5, ["a"], some (.prim (.num 1)), none⟩]).map (fun w => w.id)) ∧
      M ∈ ([⟨6, ["b"], some (.prim (.num 2)), none⟩,
            ⟨5, ["a"], some (.prim (.num 1)), none⟩] :
          List PersistedUserWrite).map (fun w => w.id) ∧
      (∀ w ∈ ([⟨6, ["b"], some (.prim (.num 2)), none⟩,
            ⟨5, ["a"], some (.prim (.num 1)), none⟩] :
          List PersistedUserWrite), w.id ≤ M) ∧
      ((getAllSorted [⟨6, ["b"], some (.prim (.num 2)), none⟩,
          ⟨5, ["a"], some (.prim (.num 1)), none⟩]).map
            (fun w => w.id)).Pairwise (fun a b => a < b) ∧
      ((getAllSorted [⟨6, ["b"], some (.prim (.num 2)), none⟩,
          ⟨5, ["a"], some (.prim (.num 1)), none⟩]).map (fun w => w.id)).Perm
        (([⟨6, ["b"], some (.prim (.num 2)), none⟩,
           ⟨5, ["a"], some (.prim (.num 1)), none⟩] :
          List PersistedUserWrite).map (fun w => w.id)) :=
  claim4_restore_writes
    [⟨6, ["b"], some (.prim (.num 2)), none⟩, ⟨5, ["a"], some (.prim (.num 1)), none⟩]
    0 (by decide) (by decide)

/-! ## Claim C3: overwrite / getAtPath round trip -/

theorem upsertF_of_lookupF_none :
    ∀ (fs : JFields) (k : String) (v : JValue), fs.lookupF k = none →
      fs.upsertF k v = fs.appendF (.cons k v .nil)
  | .nil, k, v, _ => rfl
  | .cons k0 v0 rest, k, v, h => by
      by_cases he : k0 = k
      · simp [JFields.lookupF, he] at h
      · simp only [JFields.lookupF, if_neg he] at h
        simp only [JFields.upsertF, if_neg he, JFields.appendF]
        rw [upsertF_of_lookupF_none rest k v h]

theorem lookupF_upsertF_self :
    ∀ (fs : JFields) (k : String) (v : JValue),
      (fs.upsertF k v).lookupF k = some v
  | .nil, k, v => by simp [JFields.upsertF, JFields.lookupF]
  | .cons k0 v0 rest, k, v => by
      by_cases he : k0 = k
      · simp [JFields.upsertF, he, JFields.lookupF]
      · simp only [JFields.upsertF, if_neg he, JFields.lookupF, if_neg he]
        exact lookupF_upsertF_self rest k v

theorem upsertF_upsertF :
    ∀ (fs : JFields) (k : String) (v w : JValue),
      (fs.upsertF k v).upsertF k w = fs.upsertF k w
  | .nil, k, v, w => by simp [JFields.upsertF]
  | .cons k0 v0 rest, k, v, w => by
      by_cases he : k0 = k
      · simp [JFields.upsertF, he]
      · simp only [JFields.upsertF, if_neg he]
        rw [upsertF_upsertF rest k v w]

theorem upsertF_self :
    ∀ (fs : JFields) (k : String) (v : JValue), fs.lookupF k = some v →
      fs.upsertF k v = fs
  | .nil, k, v, h => by simp [JFields.lookupF] at h
  | .cons k0 v0 rest, k, v, h => by
      by_cases he : k0 = k
      · subst he
        have hv : v0 = v := by simpa [JFields.lookupF] using h
        subst hv
        simp [JFields.upsertF]
      · simp only [JFields.lookupF, if_neg he] at h
        simp only [JFields.upsertF, if_neg he]
        rw [upsertF_self rest k v h]

theorem appendF_nil : ∀ fs : JFields, fs.appendF .nil = fs
  | .nil => rfl
  | .cons k v rest => by
      simp only [JFields.appendF]
      rw [appendF_nil rest]

theorem appendF_assoc : ∀ (fs gs hs : JFields),
    (fs.appendF gs).appendF hs = fs.appendF (gs.appendF hs)
  | .nil, _, _ => rfl
  | .cons k v rest, gs, hs => by
      simp only [JFields.appendF]
      rw [appendF_assoc rest gs hs]

theorem lookupF_upsertF_other :
    ∀ (fs : JFields) (k k' : String) (v : JValue), k ≠ k' →
      (fs.upsertF k v).lookupF k' = fs.lookupF k'
  | .nil, k, k', v, h => by simp [JFields.upsertF, JFields.lookupF, h]
  | .cons k0 v0 rest, k, k', v, h => by
      by_cases he : k0 = k
      · subst he
        simp only [JFields.upsertF, if_pos rfl, JFields.lookupF, if_neg h]
      · simp only [JFields.upsertF, if_neg he, JFields.lookupF]
        by_cases he' : k0 = k'
        · rw [if_pos he', if_pos he']
        · rw [if_neg he', if_neg he']
          exact lookupF_upsertF_other rest k k' v h

namespace ServerCacheStore

mutual

theorem setNestedData_shift (j : JValue) (q : List String) :
    setNestedData j q = (setNestedData j []).map (fun it => (q ++ it.1, it.2)) := by
  cases j with
  | null => simp [setNestedData]
  | prim p => simp [setNestedData]
  | obj fs => simpa [setNestedData] using setNestedDataFields_shift fs q

theorem setNestedDataFields_shift (fs : JFields) (q : List String) :
    setNestedDataFields fs q
      = (setNestedDataFields fs []).map (fun it => (q ++ it.1, it.2)) := by
  cases fs with
  | nil => simp [setNestedDataFields]
  | cons k v rest =>
      simp only [setNestedDataFields, List.map_append]
      rw [setNestedData_shift v (q ++ [k]), setNestedData_shift v ([] ++ [k]),
        setNestedDataFields_shift rest q]
      simp [List.map_map, Function.comp, List.append_assoc]

end

theorem mem_setNestedDataFields_shape :
    ∀ (cs : NodeFields) (q : List String) (it : StoreKey × Prim),
      it ∈ setNestedDataFields (NodeFields.valF cs) q →
      ∃ k r, it.1 = q ++ (k :: r) ∧ cs.hasKeyF k = true
  | .nil, q, it, h => by simp [NodeFields.valF, setNestedDataFields] at h
  | .cons k c rest, q, it, h => by
      simp only [NodeFields.valF, setNestedDataFields] at h
      rcases List.mem_append.mp h with h | h
      · rw [setNestedData_shift c.val (q ++ [k])] at h
        rcases List.mem_map.mp h with ⟨it0, _, heq⟩
        refine ⟨k, it0.1, ?_, ?_⟩
        · rw [← heq]
          simp [List.append_assoc]
        · simp [NodeFields.hasKeyF]
      · rcases mem_setNestedDataFields_shape rest q it h with ⟨k', r, h1, h2⟩
        exact ⟨k', r, h1, by simp [NodeFields.hasKeyF, h2]⟩

end ServerCacheStore

theorem lookupF_appendF_of_none :
    ∀ (fs gs : JFields) (k : String), fs.lookupF k = none →
      (fs.appendF gs).lookupF k = gs.lookupF k
  | .nil, _, _, _ => rfl
  | .cons k0 v0 rest, gs, k, h => by
      by_cases he : k0 = k
      · simp [JFields.lookupF, he] at h
      · simp only [JFields.lookupF, if_neg he] at h
        simp only [JFields.appendF, JFields.lookupF, if_neg he]
        exact lookupF_appendF_of_none rest gs k h

theorem allGt_hasKey :
    ∀ (cs : NodeFields) (k k' : String), NodeFields.allGt k cs = true →
      cs.hasKeyF k' = true → k < k'
  | .nil, _, _, _, h => by simp [NodeFields.hasKeyF] at h
  | .cons k0 c rest, k, k', hgt, hk => by
      simp only [NodeFields.allGt, Bool.and_eq_true, decide_eq_true_eq] at hgt
      simp only [NodeFields.hasKeyF, Bool.or_eq_true, beq_iff_eq] at hk
      rcases hk with hk | hk
      · exact hk ▸ hgt.1
      · exact allGt_hasKey rest k k' hgt.2 hk

namespace ServerCacheStore

theorem insertPath_obj :
    ∀ (rel : List String) (gs : JFields) (v : Prim), rel ≠ [] →
      ∃ hs, insertPath (.obj gs) rel v = .obj hs
  | [], _, _, h => absurd rfl h
  | [k], gs, v, _ => ⟨gs.upsertF k (.prim v), rfl⟩
  | _ :: _ :: _, _, _, _ => ⟨_, rfl⟩

theorem mem_setNestedData_key (j : JValue) (q : StoreKey) (it : StoreKey × Prim)
    (h : it ∈ setNestedData j q) : ∃ s, it.1 = q ++ s := by
  rw [setNestedData_shift j q] at h
  rcases List.mem_map.mp h with ⟨it0, _, heq⟩
  exact ⟨it0.1, by rw [← heq]⟩

mutual

theorem setNestedData_ne_nil :
    ∀ (c : Node) (q : StoreKey), c.wf = true → c.isEmptyNode = false →
      setNestedData c.val q ≠ []
  | .leaf p, q, _, _ => by simp [Node.val, setNestedData]
  | .children .nil, _, _, hne => by simp [Node.isEmptyNode] at hne
  | .children (.cons k c rest), q, hw, _ => by
      have := setNestedDataFields_ne_nil k c rest q hw
      simpa [Node.val, setNestedData] using this

theorem setNestedDataFields_ne_nil :
    ∀ (k : String) (c : Node) (rest : NodeFields) (q : StoreKey),
      NodeFields.wfF (.cons k c rest) = true →
      setNestedDataFields (NodeFields.valF (.cons k c rest)) q ≠ []
  | k, c, rest, q, hw => by
      simp only [NodeFields.wfF, Bool.and_eq_true, Bool.not_eq_true'] at hw
      have hc := setNestedData_ne_nil c (q ++ [k]) hw.1.1.2 hw.1.1.1.2
      simp only [NodeFields.valF, setNestedDataFields]
      intro hn
      exact hc (List.append_eq_nil.mp hn).1

end

mutual

theorem nodupKeys_setNestedData :
    ∀ (c : Node) (q : StoreKey), c.wf = true →
      ((setNestedData c.val q).map Prod.fst).Nodup
  | .leaf p, q, _ => by simp [Node.val, setNestedData]
  | .children .nil, q, _ => by simp [Node.val, setNestedData, setNestedDataFields]
  | .children (.cons k c rest), q, hw => by
      have := nodupKeys_setNestedDataFields (.cons k c rest) q hw
      simpa [Node.val, setNestedData] using this

theorem nodupKeys_setNestedDataFields :
    ∀ (cs : NodeFields) (q : StoreKey), NodeFields.wfF cs = true →
      ((setNestedDataFields (NodeFields.valF cs) q).map Prod.fst).Nodup
  | .nil, q, _ => by simp [NodeFields.valF, setNestedDataFields]
  | .cons k c rest, q, hw => by
      simp only [NodeFields.wfF, Bool.and_eq_true, Bool.not_eq_true'] at hw
      have h1 := nodupKeys_setNestedData c (q ++ [k]) hw.1.1.2
      have h2 := nodupKeys_setNestedDataFields rest q hw.2
      simp only [NodeFields.valF, setNestedDataFields, List.map_append]
      refine List.Nodup.append h1 h2 ?_
      intro a ha1 ha2
      rcases List.mem_map.mp ha1 with ⟨it1, hit1, he1⟩
      rcases List.mem_map.mp ha2 with ⟨it2, hit2, he2⟩
      rcases mem_setNestedData_key c.val (q ++ [k]) it1 hit1 with ⟨s, hs⟩
      rcases mem_setNestedDataFields_shape rest q it2 hit2 with ⟨k', r, hr, hk'⟩
      have hlt : k < k' := allGt_hasKey rest k k' hw.1.2 hk'
      have : (q ++ [k]) ++ s = q ++ (k' :: r) := by
        rw [← hs, ← hr, he1, he2]
      rw [List.append_assoc] at this
      have := List.append_cancel_left this
      simp at this
      exact absurd this.1 (ne_of_lt hlt)

end

end ServerCacheStore

namespace ServerCacheStore

theorem buildJ_cons (d : JValue) (it : StoreKey × Prim) (items : List (StoreKey × Prim)) :
    buildJ d (it :: items) = buildJ (insertPath d it.1 it.2) items := rfl

theorem buildJ_append (d : JValue) (a b : List (StoreKey × Prim)) :
    buildJ d (a ++ b) = buildJ (buildJ d a) b := by
  simp [buildJ, List.foldl_append]

theorem buildJ_desc :
    ∀ (items : List (StoreKey × Prim)) (k : String) (fs gs : JFields),
      (∀ it ∈ items, it.1 ≠ []) → fs.lookupF k = some (.obj gs) →
      buildJ (.obj fs) (items.map (fun it => (k :: it.1, it.2)))
        = .obj (fs.upsertF k (buildJ (.obj gs) items)) := by
  intro items
  induction items with
  | nil =>
      intro k fs gs _ hlk
      simp [buildJ, upsertF_self fs k (.obj gs) hlk]
  | cons it rest ih =>
      intro k fs gs hne hlk
      obtain ⟨k', r, hit⟩ : ∃ k' r, it.1 = k' :: r := by
        cases hcase : it.1 with
        | nil => exact absurd hcase (hne it (List.mem_cons_self it rest))
        | cons a b => exact ⟨a, b, rfl⟩
      have hstep : insertPath (.obj fs) (k :: it.1) it.2
          = .obj (fs.upsertF k (insertPath (.obj gs) it.1 it.2)) := by
        rw [hit]
        simp [insertPath, hlk, JValue.truthy]
      obtain ⟨gs', hgs'⟩ := insertPath_obj it.1 gs it.2 (by rw [hit]; exact List.cons_ne_nil k' r)
      rw [List.map_cons, buildJ_cons, hstep, hgs',
        ih k (fs.upsertF k (.obj gs')) gs'
          (fun it' h' => hne it' (List.mem_cons_of_mem it h'))
          (lookupF_upsertF_self fs k (.obj gs')),
        upsertF_upsertF, buildJ_cons, hgs']

theorem buildJ_fresh (items : List (StoreKey × Prim)) (k : String) (fs : JFields)
    (hnil : items ≠ []) (hne : ∀ it ∈ items, it.1 ≠ []) (hlk : fs.lookupF k = none) :
    buildJ (.obj fs) (items.map (fun it => (k :: it.1, it.2)))
      = .obj (fs.upsertF k (buildJ (.obj .nil) items)) := by
  cases items with
  | nil => exact absurd rfl hnil
  | cons it rest =>
      obtain ⟨k', r, hit⟩ : ∃ k' r, it.1 = k' :: r := by
        cases hcase : it.1 with
        | nil => exact absurd hcase (hne it (List.mem_cons_self it rest))
        | cons a b => exact ⟨a, b, rfl⟩
      have hstep : insertPath (.obj fs) (k :: it.1) it.2
          = .obj (fs.upsertF k (insertPath (.obj .nil) it.1 it.2)) := by
        rw [hit]
        simp [insertPath, hlk]
      obtain ⟨gs', hgs'⟩ := insertPath_obj it.1 .nil it.2 (by rw [hit]; exact List.cons_ne_nil k' r)
      rw [List.map_cons, buildJ_cons, hstep, hgs',
        buildJ_desc rest k (fs.upsertF k (.obj gs')) gs'
          (fun it' h' => hne it' (List.mem_cons_of_mem it h'))
          (lookupF_upsertF_self fs k (.obj gs')),
        upsertF_upsertF, buildJ_cons, hgs']

mutual

theorem buildJ_setNestedData :
    ∀ (c : Node) (k : String) (fs : JFields), fs.lookupF k = none →
      c.isEmptyNode = false → c.wf = true →
      buildJ (.obj fs) ((setNestedData c.val []).map (fun it => (k :: it.1, it.2)))
        = .obj (fs.upsertF k c.val)
  | .leaf p, k, fs, _, _, _ => by
      simp [Node.val, setNestedData, buildJ, insertPath]
  | .children .nil, _, _, _, hne, _ => by simp [Node.isEmptyNode] at hne
  | .children (.cons k0 c0 rest0), k, fs, hlk, hne, hw => by
      have hnil : setNestedData (Node.children (.cons k0 c0 rest0)).val [] ≠ [] :=
        setNestedData_ne_nil _ [] hw hne
      have hshape : ∀ it ∈ setNestedData (Node.children (.cons k0 c0 rest0)).val [], it.1 ≠ [] := by
        intro it hit
        rcases mem_setNestedDataFields_shape (.cons k0 c0 rest0) [] it
          (by simpa [Node.val, setNestedData] using hit) with ⟨k', r, h1, _⟩
        simp only [List.nil_append] at h1
        rw [h1]
        exact List.cons_ne_nil k' r
      rw [buildJ_fresh _ k fs hnil hshape hlk]
      have hGF := buildJ_setNestedDataFields (.cons k0 c0 rest0) .nil
        (fun _ _ => rfl) hw
      simp only [Node.val, setNestedData] at *
      rw [hGF]
      rfl

theorem buildJ_setNestedDataFields :
    ∀ (cs : NodeFields) (gs : JFields),
      (∀ k, cs.hasKeyF k = true → gs.lookupF k = none) →
      NodeFields.wfF cs = true →
      buildJ (.obj gs) (setNestedDataFields (NodeFields.valF cs) [])
        = .obj (gs.appendF (NodeFields.valF cs))
  | .nil, gs, _, _ => by
      simp [NodeFields.valF, setNestedDataFields, buildJ, appendF_nil]
  | .cons k c rest, gs, hfresh, hw => by
      simp only [NodeFields.wfF, Bool.and_eq_true, Bool.not_eq_true'] at hw
      have hgk : gs.lookupF k = none :=
        hfresh k (by simp [NodeFields.hasKeyF])
      have hshift : setNestedData c.val ([] ++ [k])
          = (setNestedData c.val []).map (fun it => (k :: it.1, it.2)) := by
        rw [setNestedData_shift c.val ([] ++ [k])]
        simp
      simp only [NodeFields.valF, setNestedDataFields]
      rw [hshift, buildJ_append,
        buildJ_setNestedData c k gs hgk hw.1.1.1.2 hw.1.1.2,
        upsertF_of_lookupF_none gs k c.val hgk,
        buildJ_setNestedDataFields rest (gs.appendF (.cons k c.val .nil))
          (fun k' hk' => by
            have hk'' : k ≠ k' := ne_of_lt (allGt_hasKey rest k k' hw.1.2 hk')
            rw [lookupF_appendF_of_none gs _ k'
              (hfresh k' (by simp [NodeFields.hasKeyF, hk']))]
            simp [JFields.lookupF, hk''])
          hw.2,
        appendF_assoc]
      rfl

end

end ServerCacheStore

mutual

theorem nodeFromJSON_val : ∀ (n : Node), n.wf = true → nodeFromJSON n.val = n
  | .leaf p, _ => rfl
  | .children .nil, _ => rfl
  | .children (.cons k c rest), hw => by
      have := fieldsToNode_valF (.cons k c rest) hw
      simp only [Node.val, nodeFromJSON]
      rw [this]

theorem fieldsToNode_valF :
    ∀ (cs : NodeFields), NodeFields.wfF cs = true →
      fieldsToNode (NodeFields.valF cs) = cs
  | .nil, _ => rfl
  | .cons k c rest, hw => by
      simp only [NodeFields.wfF, Bool.and_eq_true, Bool.not_eq_true'] at hw
      have hc := nodeFromJSON_val c hw.1.1.2
      simp only [NodeFields.valF, fieldsToNode, hc, hw.1.1.1.2,
        Bool.false_eq_true, if_false]
      rw [fieldsToNode_valF rest hw.2]

end

theorem filter_not_self {α : Type} (q : α → Bool) :
    ∀ l : List α, (l.filter (fun a => !(q a))).filter q = []
  | [] => rfl
  | a :: l => by
      cases hq : q a <;> simp [List.filter_cons, hq, filter_not_self q l]

theorem applyOps_append (a b : List StoreOp) (st : Store) :
    applyOps (a ++ b) st = applyOps b (applyOps a st) := by
  simp [applyOps, List.foldl_append]

theorem applyOps_sets_fresh :
    ∀ (items : List (StoreKey × Prim)) (st : Store),
      ((items.map Prod.fst).Nodup) →
      (∀ it ∈ items, ∀ kv ∈ st, kv.1 ≠ it.1) →
      applyOps (items.map (fun it => .set it.1 it.2)) st = st ++ items
  | [], st, _, _ => by simp [applyOps]
  | it :: rest, st, hnd, hfr => by
      have hst : st.filter (fun kv => !(kv.1 == it.1)) = st := by
        apply List.filter_eq_self.mpr
        intro kv hkv
        simpa using hfr it (List.mem_cons_self it rest) kv hkv
      have hop : applyOp st (.set it.1 it.2) = st ++ [it] := by
        simp only [applyOp, hst]
      have hnd' : ((rest.map Prod.fst).Nodup) := (List.nodup_cons.mp hnd).2
      have hhd : it.1 ∉ rest.map Prod.fst := (List.nodup_cons.mp hnd).1
      have hfr' : ∀ it' ∈ rest, ∀ kv ∈ st ++ [it], kv.1 ≠ it'.1 := by
        intro it' hit' kv hkv
        rcases List.mem_append.mp hkv with h | h
        · exact hfr it' (List.mem_cons_of_mem it hit') kv h
        · have hkv' : kv = it := by simpa using h
          subst hkv'
          intro hcontra
          exact hhd (hcontra ▸ List.mem_map_of_mem Prod.fst hit')
      have : applyOps ((it :: rest).map (fun it => .set it.1 it.2)) st
          = applyOps (rest.map (fun it => .set it.1 it.2)) (applyOp st (.set it.1 it.2)) := rfl
      rw [this, hop, applyOps_sets_fresh rest (st ++ [it]) hnd' hfr']
      simp

namespace ServerCacheStore

theorem overwriteOps_false (n : Node) (p : StoreKey) :
    overwriteOps n p false
      = removeLeafNodesOps p ++ (.removePrefixed p :: saveNodeOps n p) := rfl

theorem storeGetAll_overwrite (n : Node) (p : StoreKey) (st : Store)
    (hw : n.wf = true) :
    storeGetAll (overwrite n p false st) p = setNestedData n.val p := by
  unfold overwrite
  rw [overwriteOps_false, applyOps_append]
  have hcons : applyOps (.removePrefixed p :: saveNodeOps n p)
        (applyOps (removeLeafNodesOps p) st)
      = applyOps (saveNodeOps n p)
        (applyOp (applyOps (removeLeafNodesOps p) st) (.removePrefixed p)) := rfl
  rw [hcons]
  have hfr : ∀ it ∈ setNestedData n.val p,
      ∀ kv ∈ applyOp (applyOps (removeLeafNodesOps p) st) (.removePrefixed p),
        kv.1 ≠ it.1 := by
    intro it hit kv hkv
    rcases mem_setNestedData_key n.val p it hit with ⟨s, hs⟩
    have hkv' : (p.isPrefixOf kv.1) = false := by
      simp only [applyOp] at hkv
      have := List.of_mem_filter hkv
      simpa using this
    intro hcontra
    rw [hcontra, hs] at hkv'
    have htrue : p.isPrefixOf (p ++ s) = true := by
      simp [List.isPrefixOf_iff_prefix]
    rw [htrue] at hkv'
    exact Bool.true_eq_false.mp hkv'
  rw [show saveNodeOps n p = (setNestedData n.val p).map (fun it => .set it.1 it.2) from rfl,
    applyOps_sets_fresh (setNestedData n.val p) _ (nodupKeys_setNestedData n p hw) hfr]
  unfold storeGetAll
  rw [List.filter_append]
  have h1 : (applyOp (applyOps (removeLeafNodesOps p) st) (.removePrefixed p)).filter
      (fun kv => p.isPrefixOf kv.1) = [] := by
    simp only [applyOp]
    exact filter_not_self (fun kv => p.isPrefixOf kv.1) (applyOps (removeLeafNodesOps p) st)
  have h2 : (setNestedData n.val p).filter (fun kv => p.isPrefixOf kv.1)
      = setNestedData n.val p := by
    apply List.filter_eq_self.mpr
    intro it hit
    rcases mem_setNestedData_key n.val p it hit with ⟨s, hs⟩
    rw [hs]
    simp [List.isPrefixOf_iff_prefix]
  rw [h1, h2, List.nil_append]

theorem getAtPathData_of_ne (p : StoreKey) (items : List (StoreKey × Prim))
    (hnil : items ≠ []) (hkeys : ∀ it ∈ items, it.1 ≠ p) :
    getAtPathData p items = reassemble p items := by
  match items with
  | [] => exact absurd rfl hnil
  | [(k, v)] =>
      have hk : k ≠ p := hkeys (k, v) (List.mem_singleton.mpr rfl)
      simp [getAtPathData, hk]
  | a :: b :: rest => rfl

theorem map_dropLeft {β : Type} (p : List String) :
    ∀ (l : List (List String × β)),
      (l.map (fun it => (p ++ it.1, it.2))).map (fun it => (it.1.drop p.length, it.2)) = l
  | [] => rfl
  | it :: l => by simp [List.drop_left, map_dropLeft p l]

theorem getAtPathData_setNestedData (n : Node) (p : StoreKey) (hw : n.wf = true) :
    getAtPathData p (setNestedData n.val p) = n.val := by
  match n with
  | .leaf q => simp [Node.val, setNestedData, getAtPathData]
  | .children .nil => rfl
  | .children (.cons k c rest) =>
      have hnil : setNestedData (Node.children (.cons k c rest)).val p ≠ [] :=
        setNestedData_ne_nil _ p hw rfl
      have hkeys : ∀ it ∈ setNestedData (Node.children (.cons k c rest)).val p, it.1 ≠ p := by
        intro it hit
        rcases mem_setNestedDataFields_shape (.cons k c rest) p it
          (by simpa [Node.val, setNestedData] using hit) with ⟨k', r, h1, _⟩
        rw [h1]
        intro hcontra
        have := congrArg List.length hcontra
        simp at this
      rw [getAtPathData_of_ne p _ hnil hkeys]
      unfold reassemble
      have hshift : setNestedData (Node.children (.cons k c rest)).val p
          = (setNestedData (Node.children (.cons k c rest)).val []).map
              (fun it => (p ++ it.1, it.2)) :=
        setNestedData_shift _ p
      rw [hshift, map_dropLeft]
      have hGF := buildJ_setNestedDataFields (.cons k c rest) .nil
        (fun _ _ => rfl) hw
      simp only [Node.val, setNestedData] at *
      rw [hGF]
      rfl

end ServerCacheStore

/-- C3: for a full (non-partial) overwrite of a well-formed node at a path,
reading the cache back at the same path returns exactly that node: the
flatten (`setNestedData_`) / reassemble (`getAtPath`) round trip is the
identity on well-formed nodes. -/
theorem claim3_overwrite_roundtrip (n : Node) (p : StoreKey) (st : Store)
    (hw : n.wf = true) :
    ServerCacheStore.getAtPath (ServerCacheStore.overwrite n p false st) p = n := by
  unfold ServerCacheStore.getAtPath
  rw [ServerCacheStore.storeGetAll_overwrite n p st hw,
    ServerCacheStore.getAtPathData_setNestedData n p hw]
  exact nodeFromJSON_val n hw

/-- C3 witness: the round trip at a concrete leaf node, path, and store. -/
theorem claim3_witness :
    (Node.leaf (.num 1)).wf = true ∧
      ServerCacheStore.getAtPath
        (ServerCacheStore.overwrite (.leaf (.num 1)) ["p"] false
          [(["p", "x"], .str "old"), (["q"], .bool true)]) ["p"]
        = .leaf (.num 1) :=
  ⟨rfl, claim3_overwrite_roundtrip (.leaf (.num 1)) ["p"]
    [(["p", "x"], .str "old"), (["q"], .bool true)] rfl⟩
